import Mathlib

/-!
Verification development for the instantFSM hierarchical state machine
library (single-header C++ library `instantFSM.h`).

The data model and the operations are shallowly embedded from the source:

* `STree` mirrors `ifsm::priv::StateImpl` (name, parallel flag, initial
  tag, ordered children, entry/exit callbacks, transition table).  The
  C++ implementation stores the states in a flat map with parent
  pointers; here a state together with its chain of ancestors
  (innermost first) plays the role of a `StateImpl*`.
* `MState` mirrors the machine's mutable data: the `mIsActive` flag,
  the `mInToplevelProcess` flag, the per-state `mActive` child pointer
  (a map from state name to optional child name), the event queue and
  an observation log of the callback labels that fired, in order.
* Entry/exit callbacks are embedded as the ordered list of their labels;
  a transition action is a label plus the list of events the action
  pushes with `pushEvent` (the two things a callback can observably do).
* A transition guard (`Condition`) is embedded as an optional predicate
  over the `inState` oracle, mirroring that a C++ guard receives
  `const StateMachine&`.

Imperative worklist loops of the source are embedded as fuel-indexed
loops (the fuel is always instantiated with a provably sufficient
bound), keeping every definition executable by the kernel.
-/

namespace IFSM

/-- A transition action callback: the label it logs and the events it
pushes into the machine queue when invoked. -/
structure ActionCb where
  label : String
  pushes : List String
deriving Repr

/-- Mirrors `ifsm::priv::TransitionImpl`: event name, optional target
(state name), optional condition, optional action.  The source pointer
is implicit: transitions are stored in their source state. -/
structure TransitionDef where
  event : String
  target : Option String
  guard : Option ((String → Bool) → Bool)
  action : Option ActionCb

mutual
/-- Mirrors `ifsm::priv::StateImpl` (the built, validated state):
name, `mIsParallel`, the `initialTag` of the defining `StateDef`,
ordered children, `mOnEntryActions` / `mOnExitActions` (as labels) and
the transition table. -/
inductive STree where
  | mk : (name : String) → (isParallel : Bool) → (isInitial : Bool) →
         (children : SForest) → (onEntry : List String) →
         (onExit : List String) → (transitions : List TransitionDef) → STree

/-- The ordered list of children of a state (`ChildrenMap`). -/
inductive SForest where
  | nil : SForest
  | cons : STree → SForest → SForest
end

namespace STree

def name : STree → String
  | .mk n _ _ _ _ _ _ => n

def isParallel : STree → Bool
  | .mk _ p _ _ _ _ _ => p

def isInitial : STree → Bool
  | .mk _ _ i _ _ _ _ => i

def children : STree → SForest
  | .mk _ _ _ c _ _ _ => c

def onEntry : STree → List String
  | .mk _ _ _ _ e _ _ => e

def onExit : STree → List String
  | .mk _ _ _ _ _ x _ => x

def transitions : STree → List TransitionDef
  | .mk _ _ _ _ _ _ t => t

end STree

/-- Convert a forest to the list of its trees (document order). -/
def SForest.toList : SForest → List STree
  | .nil => []
  | .cons c cs => c :: SForest.toList cs

mutual
/-- Number of states in a subtree. -/
def STree.size : STree → Nat
  | .mk _ _ _ c _ _ _ => 1 + SForest.sizeF c

/-- Number of states in a forest. -/
def SForest.sizeF : SForest → Nat
  | .nil => 0
  | .cons c cs => STree.size c + SForest.sizeF cs
end

/-- `isAtomic` of `StateImpl`: a state with no children. -/
def STree.isAtomic (s : STree) : Bool :=
  match s.children with
  | .nil => true
  | .cons _ _ => false

/-- `mInitial` of `StateImpl`: the first child tagged `initialTag`
(the build step rejects a second one with `AlreadyHasInitial`). -/
def initialChild (s : STree) : Option STree :=
  s.children.toList.find? (fun c => c.isInitial)

/-- A state paired with its chain of ancestors, innermost first: the
embedding of a `StateImpl*` (the parent pointer is the head of the
second component). -/
abbrev PNode := STree × List STree

/-- The children of a state as `PNode`s (their ancestor chain extends
the parent's by the parent itself). -/
def pnChildren (pn : PNode) : List PNode :=
  pn.1.children.toList.map (fun c => (c, pn.1 :: pn.2))

/-- Total size of the states held in a worklist; the measure that
bounds every worklist loop of the source. -/
def sumSize (l : List PNode) : Nat :=
  l.foldr (fun pn a => pn.1.size + a) 0

/-- The mutable machine data of `ifsm::StateMachine`:
`mIsActive`, `mInToplevelProcess`, the per-state `mActive` pointer
(state name to optional child name), the `mEvents` queue, and the
observation log of callback labels. -/
@[ext]
structure MState where
  flag : Bool
  inTop : Bool
  act : String → Option String
  queue : List String
  out : List String

/-- Update a single `mActive` pointer. -/
def MState.setAct (ms : MState) (n : String) (v : Option String) : MState :=
  { ms with act := fun m => if m = n then v else ms.act m }

/-- The machine as freshly constructed: inactive, no `mActive`
pointers set, empty queue. -/
def freshMS : MState :=
  { flag := false, inTop := false, act := fun _ => none, queue := [], out := [] }

/-- Mirrors `StateImpl::isActive` (README line 1118): the root defers
to the machine flag; otherwise the state is active when its parent's
`mActive` points at it, or its parent is parallel and itself active.
The ancestor chain is given innermost first. -/
def activeUp (ms : MState) : STree → List STree → Bool
  | _, [] => ms.flag
  | s, p :: rest =>
      (ms.act p.name = some s.name) || (p.isParallel && activeUp ms p rest)

mutual
/-- Look a state up by name in a subtree, returning it together with its
ancestor chain (innermost first) relative to the subtree root; the
embedding of the `mAllStates` find. -/
def lookupT (n : String) : STree → Option PNode
  | s@(.mk _ _ _ c _ _ _) =>
    if s.name = n then some (s, [])
    else
      match lookupF n c with
      | some (t, anc) => some (t, anc ++ [s])
      | none => none

/-- Look a state up by name in a forest (document order). -/
def lookupF (n : String) : SForest → Option PNode
  | .nil => none
  | .cons c cs =>
      match lookupT n c with
      | some r => some r
      | none => lookupF n cs
end

/-- Mirrors `StateMachine::inState` (README lines 1349-1366): false for
unknown names, otherwise the `isActive` computation (for the root state
itself this is exactly the machine flag). -/
def inStateB (root : STree) (ms : MState) (n : String) : Bool :=
  match lookupT n root with
  | none => false
  | some (s, anc) => activeUp ms s anc

/-- Mirrors `StateImpl::enter` (README lines 1122-1139), the
non-throwing path: a non-parallel state points `mActive` at its initial
child when it has one; the parent's `mActive` is pointed at the state
when the parent is not parallel; the entry callbacks run.  (The
`NoInitialState` throw of the source is modelled by `stateEnterE`
below; on topologies accepted by the builder the two agree.) -/
def stateEnter (ms : MState) (pn : PNode) : MState :=
  let s := pn.1
  let ms1 :=
    if s.isParallel then ms
    else
      match initialChild s with
      | some ini => ms.setAct s.name (some ini.name)
      | none => ms
  let ms2 :=
    match pn.2 with
    | [] => ms1
    | p :: _ => if p.isParallel then ms1 else ms1.setAct p.name (some s.name)
  { ms2 with out := ms2.out ++ s.onEntry }

/-- Mirrors `StateImpl::leave` (README lines 1141-1149): clear the
parent's `mActive` pointer (unless the parent is parallel) and run the
exit callbacks. -/
def stateLeave (ms : MState) (pn : PNode) : MState :=
  let ms1 :=
    match pn.2 with
    | [] => ms
    | p :: _ => if p.isParallel then ms else ms.setAct p.name none
  { ms1 with out := ms1.out ++ pn.1.onExit }

/-- The worklist loop of `StateMachine::enter` (README lines 1284-1300):
pop the front state, enter it, then push at the front its initial child
(non-parallel case) or all its children in document order (parallel
case). -/
def enterLoop : Nat → MState → List PNode → MState
  | 0, ms, _ => ms
  | _ + 1, ms, [] => ms
  | fuel + 1, ms, pn :: rest =>
      let ms1 := stateEnter ms pn
      let next :=
        if pn.1.isParallel then pnChildren pn ++ rest
        else
          match initialChild pn.1 with
          | some ini => (ini, pn.1 :: pn.2) :: rest
          | none => rest
      enterLoop fuel ms1 next

/-- Mirrors `StateMachine::enter` (README lines 1273-1301): idempotent
when active; otherwise set the flag and run the initial descent. -/
def machineEnter (root : STree) (ms : MState) : MState :=
  if ms.flag then ms
  else enterLoop root.size { ms with flag := true } [(root, [])]

/-- The collection loop of `StateMachine::leave` (README lines
1308-1330): a depth-first worklist; every popped state is prepended to
the exit list, and only active states are expanded (all children for a
parallel state, the `mActive` child otherwise).  Returns the list in
its final front-to-back order (reverse visit order). -/
def leaveCollect (ms : MState) : Nat → List PNode → List PNode → List PNode
  | 0, acc, _ => acc
  | _ + 1, acc, [] => acc
  | fuel + 1, acc, pn :: rest =>
      let acc1 := pn :: acc
      if !(activeUp ms pn.1 pn.2) then leaveCollect ms fuel acc1 rest
      else if pn.1.isParallel then
        leaveCollect ms fuel acc1 (pnChildren pn ++ rest)
      else
        match ms.act pn.1.name with
        | some childName =>
            match pn.1.children.toList.find? (fun c => c.name = childName) with
            | some c => leaveCollect ms fuel acc1 ((c, pn.1 :: pn.2) :: rest)
            | none => leaveCollect ms fuel acc1 rest
        | none => leaveCollect ms fuel acc1 rest

/-- Mirrors `StateMachine::leave` (README lines 1303-1337): collect the
active states, call `leave` on each in the collected order, clear the
machine flag. -/
def machineLeave (root : STree) (ms : MState) : MState :=
  if !ms.flag then ms
  else
    let l := leaveCollect ms root.size [] [(root, [])]
    let ms1 := l.foldl stateLeave ms
    { ms1 with flag := false }

/-- The self-or-ancestor chain of a state, each with its own ancestor
chain, innermost first: the sequence of `StateImpl*` values a walk over
`mParent` visits starting at the state itself. -/
def upChain : STree → List STree → List PNode
  | s, [] => [(s, [])]
  | s, p :: rest => (s, p :: rest) :: upChain p rest

/-- The ancestors of a state as `PNode`s (the walk starting at the
parent). -/
def ancPNodes : List STree → List PNode
  | [] => []
  | p :: rest => (p, rest) :: ancPNodes rest

/-- Mirrors `TransitionImpl::test` (README lines 975-980): true when no
condition is set, otherwise the condition evaluated against the
machine (observed through the `inState` oracle). -/
def transTest (root : STree) (ms : MState) (t : TransitionDef) : Bool :=
  match t.guard with
  | none => true
  | some g => g (fun n => inStateB root ms n)

/-- The transitions of one state matching the event whose condition
holds (`equal_range` over the transition multimap, keeping insertion
order, followed by `test`). -/
def matchHere (root : STree) (ms : MState) (e : String) (s : STree) :
    List TransitionDef :=
  s.transitions.filter (fun t => t.event = e && transTest root ms t)

/-- A selected candidate: the source state (as a `PNode`) together with
the transition. -/
abbrev Cand := PNode × TransitionDef

/-- The upward walk of `selectTransitions` (README lines 1417-1428) for
one active atomic state: at each state of the chain take every
transition matching the event whose condition holds; the walk stops at
the first state that contributed at least one (`lMatched`). -/
def walkUp (root : STree) (ms : MState) (e : String) :
    List PNode → List Cand
  | [] => []
  | q :: qs =>
      let here := matchHere root ms e q.1
      if here.isEmpty then walkUp root ms e qs
      else here.map (fun t => (q, t))

/-- The depth-first collection of active atomic states of
`selectTransitions` (README lines 1403-1413): preorder, document order,
filtered by `isAtomic && isActive`. -/
def collectAtomics (ms : MState) : Nat → List PNode → List PNode
  | 0, _ => []
  | _ + 1, [] => []
  | fuel + 1, pn :: rest =>
      let tail := collectAtomics ms fuel (pnChildren pn ++ rest)
      if pn.1.isAtomic && activeUp ms pn.1 pn.2 then pn :: tail else tail

/-- Mirrors `StateMachine::selectTransitions` (README lines 1401-1432). -/
def selectTransitions (root : STree) (ms : MState) (e : String) : List Cand :=
  (collectAtomics ms root.size [(root, [])]).flatMap
    (fun pn => walkUp root ms e (upChain pn.1 pn.2))

/-- The names of a state and of all its ancestors (the `mParent`
chain), looked up from the machine root. -/
def selfOrAnc (root : STree) (n : String) : List String :=
  match lookupT n root with
  | some (t, anc) => t.name :: anc.map STree.name
  | none => []

/-- Mirrors `StateMachine::isDescendant` (README lines 1583-1594): walk
up from the checked state until the other state or the root is passed.
(A state is a descendant of itself.) -/
def isDescB (root : STree) (nCheck nAgainst : String) : Bool :=
  (selfOrAnc root nCheck).contains nAgainst

/-- Mirrors `StateMachine::findLeastCommonAncestor` (README lines
1726-1743): the first ancestor of the source of which the target is a
descendant, the root if none is found. -/
def findLCA (root : STree) (src : PNode) (tgtName : String) : PNode :=
  match (ancPNodes src.2).find? (fun q => isDescB root tgtName q.1.name) with
  | some q => q
  | none => (root, [])

/-- The breadth-first collection of `listExitStates` (README lines
1511-1521): pop a state, prepend its active children to the exit list
(so the final order is reverse discovery order) and queue them. -/
def exitCollect (ms : MState) : Nat → List PNode → List PNode → List PNode
  | 0, acc, _ => acc
  | _ + 1, acc, [] => acc
  | fuel + 1, acc, pn :: fifo =>
      let actKids := (pnChildren pn).filter (fun c => activeUp ms c.1 c.2)
      exitCollect ms fuel (actKids.reverse ++ acc) (fifo ++ actKids)

/-- Mirrors `StateMachine::listExitStates` (README lines 1500-1524):
every currently active strict descendant of the least common ancestor
of source and target, in reverse breadth-first discovery order. -/
def listExitStates (root : STree) (ms : MState) (src : PNode)
    (tgtName : String) : List PNode :=
  let lca := findLCA root src tgtName
  if activeUp ms lca.1 lca.2 then exitCollect ms root.size [] [lca] else []

/-- The exit set a candidate would cause if fired alone (empty for a
targetless transition). -/
def candExits (root : STree) (ms : MState) (c : Cand) : List PNode :=
  match c.2.target with
  | none => []
  | some tn => listExitStates root ms c.1 tn

/-- The inner loop of `removeConflicts` (README lines 1458-1486),
checking candidate `T` against the already accepted transitions.
`accSz` threads the size of the scratch vector `lIntersect`, which the
source never clears: the source's conflict test `!lIntersect.empty()`
is true exactly when `accSz` plus the sizes of the two exit lists is
nonzero (the result of `std::set_intersection` itself is never
consulted).  Returns (preempted, indices marked for removal, new
scratch size). -/
def rcInner (root : STree) (ms : MState) (tTgt : String) (tLen : Nat) :
    Nat → List (Nat × Cand) → Bool × List Nat × Nat
  | accSz, [] => (false, [], accSz)
  | accSz, (j, u) :: us =>
      match u.2.target with
      | none => rcInner root ms tTgt tLen accSz us
      | some uTgt =>
          let uLen := (candExits root ms u).length
          let accSz1 := accSz + tLen + uLen
          if accSz1 ≠ 0 then
            if isDescB root tTgt uTgt then
              let r := rcInner root ms tTgt tLen accSz1 us
              (r.1, j :: r.2.1, r.2.2)
            else (true, [], accSz1)
          else rcInner root ms tTgt tLen accSz1 us

/-- The outer loop of `removeConflicts` (README lines 1442-1495) over
index-tagged candidates (the C++ works with pointer identity; the index
plays that role). -/
def rcLoop (root : STree) (ms : MState) :
    Nat → List (Nat × Cand) → List (Nat × Cand) → List (Nat × Cand)
  | _, filtered, [] => filtered
  | accSz, filtered, (i, t) :: ts =>
      match t.2.target with
      | none => rcLoop root ms accSz (filtered ++ [(i, t)]) ts
      | some tTgt =>
          if filtered.isEmpty then rcLoop root ms accSz (filtered ++ [(i, t)]) ts
          else
            let tLen := (candExits root ms (t.1, t.2)).length
            let r := rcInner root ms tTgt tLen accSz filtered
            if r.1 then rcLoop root ms r.2.2 filtered ts
            else
              rcLoop root ms r.2.2
                ((filtered.filter fun ju => !(r.2.1.contains ju.1)) ++ [(i, t)]) ts

/-- Mirrors `StateMachine::removeConflicts` (README lines 1434-1498). -/
def removeConflicts (root : STree) (ms : MState) (cands : List Cand) :
    List Cand :=
  (rcLoop root ms 0 [] cands.enum).map Prod.snd

/-- The completion part of `listEntryStates` (README lines 1536-1553):
breadth-first below the target, appending all children of a parallel
state and the initial child of a non-parallel state. -/
def entryCompletion : Nat → List PNode → List PNode → List PNode
  | 0, acc, _ => acc
  | _ + 1, acc, [] => acc
  | fuel + 1, acc, pn :: fifo =>
      if pn.1.isParallel then
        let kids := pnChildren pn
        entryCompletion fuel (acc ++ kids) (fifo ++ kids)
      else
        match initialChild pn.1 with
        | some ini =>
            entryCompletion fuel (acc ++ [(ini, pn.1 :: pn.2)])
              (fifo ++ [(ini, pn.1 :: pn.2)])
        | none => entryCompletion fuel acc fifo

/-- The ancestor part of `listEntryStates` (README lines 1557-1561):
the inactive ancestors of the target up to (excluding) the first active
one, outermost first (each was pushed at the front in walk order). -/
def inactiveAncPrefix (ms : MState) (anc : List STree) : List PNode :=
  ((ancPNodes anc).takeWhile fun q => !(activeUp ms q.1 q.2)).reverse

/-- The child insertion of the parallel scan of `listEntryStates`
(README lines 1569-1575).  The cursor state is (reversed prefix,
current element, suffix); `a0` is the element that followed the
parallel state when the scan reached it (`lAlreadyInserted`, never
re-read).  A child equal to `a0` advances the cursor; any other child
is inserted after the cursor, which moves onto it.  (When the suffix is
exhausted on a match the source would dereference an end iterator; that
situation cannot arise on built topologies and is modelled as a no-op.) -/
def childPass (a0 : Option String) :
    List PNode → PNode → List PNode → List PNode → List PNode × List PNode
  | rb, cur, after, [] => (cur :: rb, after)
  | rb, cur, after, c :: cs =>
      if a0 = some c.1.name then
        match after with
        | [] => childPass a0 rb cur [] cs
        | a :: rest => childPass a0 (cur :: rb) a rest cs
      else childPass a0 (cur :: rb) c after cs

/-- The parallel scan of `listEntryStates` (README lines 1564-1578):
walk the entry list; at each parallel state, run `childPass` over its
children; elements the cursor has passed are never revisited. -/
def parallelPass : Nat → List PNode → List PNode → List PNode
  | 0, acc, _ => acc.reverse
  | _ + 1, acc, [] => acc.reverse
  | fuel + 1, acc, p :: rest =>
      if p.1.isParallel then
        let a0 := rest.head?.map (fun q => q.1.name)
        let r := childPass a0 acc p rest (pnChildren p)
        parallelPass fuel r.1 r.2
      else parallelPass fuel (p :: acc) rest

/-- Mirrors `StateMachine::listEntryStates` (README lines 1526-1581):
target, its completion, the inactive ancestors in front, then the
parallel scan. -/
def listEntryStates (root : STree) (ms : MState) (tgt : PNode) :
    List PNode :=
  let completion := entryCompletion root.size [tgt] [tgt]
  let full := inactiveAncPrefix ms tgt.2 ++ completion
  parallelPass (root.size + full.length) [] full

/-- Mirrors the collection plus leave loop of
`StateMachine::exitStates` (README lines 1596-1610): concatenate the
exit lists of all targeted transitions (all computed against the same
configuration), then leave each state in order. -/
def exitPhase (root : STree) (ms : MState) (filtered : List Cand) : MState :=
  let toExit := filtered.flatMap (fun c => candExits root ms c)
  toExit.foldl stateLeave ms

/-- Mirrors `TransitionImpl::doAction` (README lines 982-986): run the
action when present (log its label, enqueue its pushed events — a
`pushEvent` from inside a callback during event processing only
enqueues, because `mInToplevelProcess` is set). -/
def doAction (ms : MState) (c : Cand) : MState :=
  match c.2.action with
  | some cb => { ms with out := ms.out ++ [cb.label], queue := ms.queue ++ cb.pushes }
  | none => ms

/-- The action loop of `processTransitions` (README lines 1393-1395). -/
def doActions (ms : MState) (filtered : List Cand) : MState :=
  filtered.foldl doAction ms

/-- Mirrors the collection plus enter loop of
`StateMachine::enterStates` (README lines 1612-1626): concatenate the
entry lists of all targeted transitions (computed against the
configuration after the exit phase), then enter each state in order. -/
def enterPhase (root : STree) (ms : MState) (filtered : List Cand) : MState :=
  let toEnter := filtered.flatMap (fun c =>
    match c.2.target with
    | none => []
    | some tn =>
        match lookupT tn root with
        | some tgt => listEntryStates root ms tgt
        | none => [])
  toEnter.foldl stateEnter ms

/-- Mirrors `StateMachine::processTransitions` (README lines 1385-1399):
select, filter conflicts, exit, run actions, enter. -/
def processTransitions (root : STree) (ms : MState) (e : String) : MState :=
  let filtered := removeConflicts root ms (selectTransitions root ms e)
  let ms1 := exitPhase root ms filtered
  let ms2 := doActions ms1 filtered
  enterPhase root ms2 filtered

/-- The drain loop of `StateMachine::processEvents` (README lines
1375-1381): process the front event (events pushed by its callbacks are
appended behind it), then pop it.  The fuel bounds the number of
microsteps (the source loops until the queue is empty). -/
def processEvents (root : STree) : Nat → MState → MState
  | 0, ms => ms
  | fuel + 1, ms =>
      match ms.queue with
      | [] => ms
      | e :: _ =>
          let ms1 := processTransitions root ms e
          processEvents root fuel { ms1 with queue := ms1.queue.drop 1 }

/-- Mirrors `StateMachine::pushEvent` plus the re-entrance guard of
`processEvents` (README lines 1343-1347 and 1369-1383): enqueue; if a
toplevel processing frame is already running, stop there; otherwise
open the frame, drain the queue, close the frame. -/
def pushEventM (root : STree) (fuel : Nat) (ms : MState) (e : String) : MState :=
  let ms1 := { ms with queue := ms.queue ++ [e] }
  if ms1.inTop then ms1
  else { processEvents root fuel { ms1 with inTop := true } with inTop := false }

/-! ### Concrete machines from the repository's test suite -/

/-- Forest literal helper. -/
def F : List STree → SForest
  | [] => .nil
  | t :: ts => .cons t (F ts)

/-- State literal helper (name, parallel tag, initial tag, children,
entry labels, exit labels, transitions). -/
def St (n : String) (par ini : Bool) (cs : List STree)
    (en ex : List String) (ts : List TransitionDef) : STree :=
  .mk n par ini (F cs) en ex ts

/-- Transition literal helper (no condition). -/
def Tr (ev : String) (tgt : Option String) (act : Option ActionCb) :
    TransitionDef :=
  { event := ev, target := tgt, guard := none, action := act }

/-- The topology of the `ChildOnEntry` test (part_000 lines 85-143):
`S1{initial, S1A, S1B{initial, S1Bi, S1Bii, S1Biii{initial}}, S1C}`,
`S2`, `S3`, every state logging its own name on entry. -/
def mChild : STree :=
  St "root" false false
    [ St "S1" false true
        [ St "S1A" false false [] ["S1A"] [] [],
          St "S1B" false true
            [ St "S1Bi" false false [] ["S1Bi"] [] [],
              St "S1Bii" false false [] ["S1Bii"] [] [],
              St "S1Biii" false true [] ["S1Biii"] [] [] ]
            ["S1B"] [] [],
          St "S1C" false false [] ["S1C"] [] [] ]
        ["S1"] [] [],
      St "S2" false false [] ["S2"] [] [],
      St "S3" false false [] ["S3"] [] [] ]
    [] [] []

/-- A machine with one initial atomic state `S1` declaring two
targetless transitions on the same event (the shape of each state in
the `TargetlessTransitions` test, part_000 lines 403-482, where a
`Transition(OnEvent(..), Action(..))` and an `OnEvent(.., action)`
coexist on one state). -/
def mTwo : STree :=
  St "root" false false
    [ St "S1" false true []
        [] []
        [ Tr "event" none (some ⟨"first", []⟩),
          Tr "event" none (some ⟨"second", []⟩) ] ]
    [] [] []

/-- The topology of the `ParallelConflictingTransition` test (part_000
lines 729-785): a parallel `S1{SA, SB}` whose two regions declare, on
the same event, transitions to the outside states `S2` and `S3`
respectively. -/
def mConf : STree :=
  St "root" false false
    [ St "S1" true true
        [ St "SA" false false [] ["SA entry"] ["SA exit"]
            [ Tr "event" (some "S2") (some ⟨"SA action", []⟩) ],
          St "SB" false false [] ["SB entry"] ["SB exit"]
            [ Tr "event" (some "S3") (some ⟨"SB action", []⟩) ] ]
        ["S1 entry"] ["S1 exit"] [],
      St "S2" false false [] ["S2 entry"] ["S2 exit"] [],
      St "S3" false false [] ["S3 entry"] ["S3 exit"] [] ]
    [] [] []

/-- A parallel state with two compound regions, each declaring on the
same event a transition that stays inside its own region
(`SA1 → SA2` and `SB1 → SB2`): the exit sets of the two transitions
are disjoint. -/
def mDisj : STree :=
  St "root" false false
    [ St "P" true true
        [ St "SA" false false
            [ St "SA1" false true [] [] ["SA1 exit"]
                [ Tr "e" (some "SA2") none ],
              St "SA2" false false [] ["SA2 entry"] [] [] ]
            [] [] [],
          St "SB" false false
            [ St "SB1" false true [] [] ["SB1 exit"]
                [ Tr "e" (some "SB2") none ],
              St "SB2" false false [] ["SB2 entry"] [] [] ]
            [] [] [] ]
        [] [] [] ]
    [] [] []

/-- A parallel state with two compound regions where region `SA`
declares a transition into the sibling region (`SA1 → SB2`): a
cross-region transition. -/
def mCross : STree :=
  St "root" false false
    [ St "P" true true
        [ St "SA" false false
            [ St "SA1" false true [] [] []
                [ Tr "e" (some "SB2") none ],
              St "SA2" false false [] [] [] [] ]
            [] [] [],
          St "SB" false false
            [ St "SB1" false true [] [] [] [],
              St "SB2" false false [] [] [] [] ]
            [] [] [] ]
        [] [] [] ]
    [] [] []

/-! ### Size infrastructure -/

/-- Induction over a forest (the mutual recursor specialised to the
forest alone). -/
theorem SForest.induct (P : SForest → Prop) (nil : P .nil)
    (cons : ∀ c cs, P cs → P (.cons c cs)) : ∀ cs, P cs
  | .nil => nil
  | .cons c cs => cons c cs (SForest.induct P nil cons cs)

/-- Total size of a list of states. -/
def listSize (l : List STree) : Nat := l.foldr (fun s a => s.size + a) 0

theorem sizeF_eq_listSize (cs : SForest) : SForest.sizeF cs = listSize cs.toList := by
  induction cs using SForest.induct with
  | nil => rfl
  | cons c cs ih => simp [SForest.sizeF, SForest.toList, listSize] at ih ⊢; omega

theorem size_eq (s : STree) : s.size = 1 + listSize s.children.toList := by
  cases s with
  | mk n p i c e x t => simp [STree.size, STree.children, sizeF_eq_listSize]

theorem size_pos (s : STree) : 1 ≤ s.size := by
  rw [size_eq]; omega

theorem mem_listSize_le {c : STree} {l : List STree} (h : c ∈ l) :
    c.size ≤ listSize l := by
  induction l with
  | nil => cases h
  | cons a l ih =>
      rcases List.mem_cons.mp h with rfl | h
      · simp [listSize]
      · have := ih h; simp [listSize] at this ⊢; omega

theorem child_size_lt {c s : STree} (h : c ∈ s.children.toList) :
    c.size < s.size := by
  have := mem_listSize_le h
  rw [size_eq s]; omega

/-- Strong induction over the state tree through the children list. -/
theorem stree_ind (P : STree → Prop)
    (h : ∀ s : STree, (∀ c ∈ s.children.toList, P c) → P s) : ∀ s, P s := by
  have key : ∀ n : Nat, ∀ s : STree, s.size ≤ n → P s := by
    intro n
    induction n with
    | zero => intro s hs; have := size_pos s; omega
    | succ n ih =>
        intro s hs
        exact h s (fun c hc => ih c (by have := child_size_lt hc; omega))
  exact fun s => key s.size s le_rfl

theorem sumSize_nil : sumSize [] = 0 := rfl

theorem sumSize_cons (pn : PNode) (l : List PNode) :
    sumSize (pn :: l) = pn.1.size + sumSize l := rfl

theorem sumSize_append (a b : List PNode) :
    sumSize (a ++ b) = sumSize a + sumSize b := by
  induction a with
  | nil => simp [sumSize]
  | cons pn a ih => simp [sumSize_cons, ih]; omega

theorem sumSize_pnChildren (pn : PNode) :
    sumSize (pnChildren pn) = listSize pn.1.children.toList := by
  show sumSize (pn.1.children.toList.map _) = _
  induction pn.1.children.toList with
  | nil => rfl
  | cons c l ih => simp [sumSize_cons, listSize] at ih ⊢; omega

/-! ### The initial descent and the full state enumeration -/

mutual
/-- The set of states activated by the initial descent from a state,
as `PNode`s in document (preorder) order: the state, then recursively
all children of a parallel state, or the initial child of a
non-parallel state. -/
def descentT : STree → List STree → List PNode
  | s@(.mk _ _ _ c _ _ _), anc =>
      (s, anc) ::
        (if s.isParallel then descentFAll c (s :: anc)
         else descentFInit c (s :: anc))

/-- Descent through every tree of a forest (parallel case). -/
def descentFAll : SForest → List STree → List PNode
  | .nil, _ => []
  | .cons c cs, anc => descentT c anc ++ descentFAll cs anc

/-- Descent through the first initial-tagged tree of a forest
(non-parallel case). -/
def descentFInit : SForest → List STree → List PNode
  | .nil, _ => []
  | .cons c cs, anc =>
      if c.isInitial then descentT c anc else descentFInit cs anc
end

mutual
/-- Every state of a subtree with its ancestor chain, preorder. -/
def allPNT : STree → List STree → List PNode
  | s@(.mk _ _ _ c _ _ _), anc => (s, anc) :: allPNF c (s :: anc)

/-- Every state of a forest with its ancestor chain. -/
def allPNF : SForest → List STree → List PNode
  | .nil, _ => []
  | .cons c cs, anc => allPNT c anc ++ allPNF cs anc
end

/-- Every state of the machine, with its ancestor chain, in document
order. -/
def allPN (root : STree) : List PNode := allPNT root []

/-- The names of all states of the machine, document order. -/
def allNames (root : STree) : List String := (allPN root).map (fun pn => pn.1.name)

theorem descentFAll_eq (cs : SForest) (anc : List STree) :
    descentFAll cs anc = cs.toList.flatMap (fun c => descentT c anc) := by
  induction cs using SForest.induct with
  | nil => rfl
  | cons c cs ih => simp [descentFAll, SForest.toList, ih]

theorem descentFInit_eq (cs : SForest) (anc : List STree) :
    descentFInit cs anc =
      match cs.toList.find? (fun c => c.isInitial) with
      | some i => descentT i anc
      | none => [] := by
  induction cs using SForest.induct with
  | nil => rfl
  | cons c cs ih =>
      simp only [descentFInit, SForest.toList, List.find?]
      cases hc : c.isInitial with
      | true => simp [hc]
      | false => simp [hc, ih]

theorem descentT_eq (s : STree) (anc : List STree) :
    descentT s anc =
      (s, anc) ::
        (if s.isParallel then
           (pnChildren (s, anc)).flatMap (fun pn => descentT pn.1 pn.2)
         else
           match initialChild s with
           | some i => descentT i (s :: anc)
           | none => []) := by
  cases s with
  | mk n p i c e x t =>
      simp only [descentT, descentFAll_eq, descentFInit_eq, initialChild,
        pnChildren, STree.children, List.flatMap_map]

theorem allPNF_eq (cs : SForest) (anc : List STree) :
    allPNF cs anc = cs.toList.flatMap (fun c => allPNT c anc) := by
  induction cs using SForest.induct with
  | nil => rfl
  | cons c cs ih => simp [allPNF, SForest.toList, ih]

theorem allPNT_eq (s : STree) (anc : List STree) :
    allPNT s anc =
      (s, anc) :: (pnChildren (s, anc)).flatMap (fun pn => allPNT pn.1 pn.2) := by
  cases s with
  | mk n p i c e x t =>
      simp only [allPNT, allPNF_eq, pnChildren, STree.children, List.flatMap_map]

theorem mem_allPNT_self (s : STree) (anc : List STree) :
    (s, anc) ∈ allPNT s anc := by
  rw [allPNT_eq]; exact List.mem_cons_self _ _

theorem upChain_eq (s : STree) (anc : List STree) :
    upChain s anc = (s, anc) :: ancPNodes anc := by
  induction anc generalizing s with
  | nil => rfl
  | cons p rest ih => simp [upChain, ancPNodes, ih]

/-! ### Generic list lemmas -/

theorem sublist_flatMap_of_mem {α β : Type _} {l : List α} {a : α}
    (f : α → List β) (h : a ∈ l) : List.Sublist (f a) (l.flatMap f) := by
  induction l with
  | nil => cases h
  | cons b l ih =>
      rw [List.flatMap_cons]
      rcases List.mem_cons.mp h with rfl | h
      · exact List.sublist_append_left _ _
      · exact (ih h).trans (List.sublist_append_right _ _)

theorem flatMap_sublist {α β : Type _} {l : List α} {f g : α → List β}
    (h : ∀ a ∈ l, List.Sublist (f a) (g a)) :
    List.Sublist (l.flatMap f) (l.flatMap g) := by
  induction l with
  | nil => simp
  | cons b l ih =>
      rw [List.flatMap_cons, List.flatMap_cons]
      exact (h b (by simp)).append (ih fun a ha => h a (by simp [ha]))

theorem map_sublist_flatMap {α β : Type _} {l : List α} {h : α → β}
    {g : α → List β} (hm : ∀ a ∈ l, h a ∈ g a) :
    List.Sublist (l.map h) (l.flatMap g) := by
  induction l with
  | nil => simp
  | cons b l ih =>
      rw [List.flatMap_cons, List.map_cons]
      exact List.Sublist.append (List.singleton_sublist.mpr (hm b (by simp)))
        (ih fun a ha => hm a (by simp [ha]))

/-- On a list whose first-component names are distinct, searching by the
name of a member finds that member. -/
theorem find?_name_nodup {l : List PNode}
    (hN : (l.map (fun q => q.1.name)).Nodup) {pn : PNode} (h : pn ∈ l) :
    l.find? (fun q => q.1.name = pn.1.name) = some pn := by
  induction l with
  | nil => cases h
  | cons a l ih =>
      rw [List.map_cons, List.nodup_cons] at hN
      rcases List.mem_cons.mp h with rfl | h
      · simp [List.find?]
      · have hne : (a.1.name = pn.1.name) = False := by
          simp only [eq_iff_iff, iff_false]
          intro he
          exact hN.1 (he ▸ List.mem_map.mpr ⟨pn, h, rfl⟩)
        simp [List.find?, hne, ih hN.2 h]

/-! ### Membership and closure of the state enumerations -/

theorem mem_pnChildren {pn cpn : PNode} :
    cpn ∈ pnChildren pn ↔ ∃ c ∈ pn.1.children.toList, cpn = (c, pn.1 :: pn.2) := by
  simp [pnChildren, List.mem_map, eq_comm]

theorem mem_allPNT_child {s : STree} :
    ∀ {anc : List STree} {pn cpn : PNode}, pn ∈ allPNT s anc →
      cpn ∈ pnChildren pn → cpn ∈ allPNT s anc := by
  induction s using stree_ind with
  | _ s ih =>
      intro anc pn cpn h hc
      rw [allPNT_eq] at h ⊢
      rcases List.mem_cons.mp h with rfl | h
      · rcases mem_pnChildren.mp hc with ⟨c, hcm, rfl⟩
        refine List.mem_cons.mpr (Or.inr (List.mem_flatMap.mpr ?_))
        exact ⟨(c, s :: anc), mem_pnChildren.mpr ⟨c, hcm, rfl⟩, mem_allPNT_self _ _⟩
      · rcases List.mem_flatMap.mp h with ⟨q, hq, hpn⟩
        rcases mem_pnChildren.mp hq with ⟨c, hcm, rfl⟩
        refine List.mem_cons.mpr (Or.inr (List.mem_flatMap.mpr ?_))
        exact ⟨(c, s :: anc), mem_pnChildren.mpr ⟨c, hcm, rfl⟩, ih c hcm hpn hc⟩

theorem mem_allPNT_shape {s : STree} :
    ∀ {anc : List STree} {pn : PNode}, pn ∈ allPNT s anc →
      pn = (s, anc) ∨ ∃ q ∈ allPNT s anc, pn ∈ pnChildren q := by
  induction s using stree_ind with
  | _ s ih =>
      intro anc pn h
      rw [allPNT_eq] at h
      rcases List.mem_cons.mp h with rfl | h
      · exact Or.inl rfl
      · rcases List.mem_flatMap.mp h with ⟨q, hq, hpn⟩
        rcases mem_pnChildren.mp hq with ⟨c, hcm, rfl⟩
        rcases ih c hcm hpn with rfl | ⟨q2, hq2, hpn2⟩
        · exact Or.inr ⟨(s, anc), mem_allPNT_self _ _, mem_pnChildren.mpr ⟨c, hcm, rfl⟩⟩
        · refine Or.inr ⟨q2, ?_, hpn2⟩
          rw [allPNT_eq]
          refine List.mem_cons.mpr (Or.inr (List.mem_flatMap.mpr ?_))
          exact ⟨(c, s :: anc), mem_pnChildren.mpr ⟨c, hcm, rfl⟩, hq2⟩

/-- The ancestor chain of every state of the machine again consists of
states of the machine (with their own chains). -/
theorem mem_allPN_anc {root : STree} {pn : PNode} (h : pn ∈ allPN root) :
    ∀ q ∈ ancPNodes pn.2, q ∈ allPN root := by
  have key : ∀ k : Nat, ∀ pn : PNode, pn ∈ allPN root → pn.2.length ≤ k →
      ∀ q ∈ ancPNodes pn.2, q ∈ allPN root := by
    intro k
    induction k with
    | zero =>
        intro pn h hl q hq
        rcases pn with ⟨s, anc⟩
        cases anc with
        | nil => cases hq
        | cons p rest => simp at hl
    | succ k ih =>
        intro pn h hl q hq
        rcases mem_allPNT_shape h with rfl | ⟨q2, hq2, hpn⟩
        · cases hq
        · rcases mem_pnChildren.mp hpn with ⟨c, hcm, rfl⟩
          simp only [ancPNodes] at hq
          rcases List.mem_cons.mp hq with rfl | hq
          · exact hq2
          · have hlen : q2.2.length ≤ k := by simp at hl; omega
            exact ih q2 hq2 hlen q hq
  exact key pn.2.length pn h le_rfl

/-- The `allPNT` enumeration of any state of a subtree is a sublist of
the subtree's enumeration. -/
theorem allPNT_sublist {s : STree} :
    ∀ {anc : List STree} {pn : PNode}, pn ∈ allPNT s anc →
      List.Sublist (allPNT pn.1 pn.2) (allPNT s anc) := by
  induction s using stree_ind with
  | _ s ih =>
      intro anc pn h
      rw [allPNT_eq] at h
      rcases List.mem_cons.mp h with rfl | h
      · exact List.Sublist.refl _
      · rcases List.mem_flatMap.mp h with ⟨q, hq, hpn⟩
        rcases mem_pnChildren.mp hq with ⟨c, hcm, rfl⟩
        refine (ih c hcm hpn).trans ?_
        rw [allPNT_eq (s := s)]
        refine List.Sublist.trans ?_ (List.sublist_cons_self _ _)
        exact sublist_flatMap_of_mem (fun pn => allPNT pn.1 pn.2)
          (mem_pnChildren.mpr ⟨c, hcm, rfl⟩)

/-! ### Structure of the initial descent -/

theorem mem_descentT_self (s : STree) (anc : List STree) :
    (s, anc) ∈ descentT s anc := by
  rw [descentT_eq]; exact List.mem_cons_self _ _

theorem initialChild_mem {s i : STree} (h : initialChild s = some i) :
    i ∈ s.children.toList :=
  List.mem_of_find?_eq_some h

theorem descentT_eq_par {s : STree} {anc : List STree}
    (hp : s.isParallel = true) :
    descentT s anc =
      (s, anc) :: (pnChildren (s, anc)).flatMap (fun pn => descentT pn.1 pn.2) := by
  rw [descentT_eq, if_pos hp]

theorem descentT_eq_init {s i : STree} {anc : List STree}
    (hp : s.isParallel = false) (hi : initialChild s = some i) :
    descentT s anc = (s, anc) :: descentT i (s :: anc) := by
  rw [descentT_eq, if_neg (by simp [hp]), hi]

theorem descentT_eq_noInit {s : STree} {anc : List STree}
    (hp : s.isParallel = false) (hi : initialChild s = none) :
    descentT s anc = [(s, anc)] := by
  rw [descentT_eq, if_neg (by simp [hp]), hi]

/-- The initial descent visits a sublist of the full preorder
enumeration. -/
theorem descentT_sublist {s : STree} :
    ∀ anc : List STree, List.Sublist (descentT s anc) (allPNT s anc) := by
  induction s using stree_ind with
  | _ s ih =>
      intro anc
      rw [allPNT_eq]
      cases hp : s.isParallel with
      | true =>
          rw [descentT_eq_par hp]
          refine List.Sublist.cons₂ _ (flatMap_sublist ?_)
          intro a ha
          rcases mem_pnChildren.mp ha with ⟨c, hcm, rfl⟩
          exact ih c hcm _
      | false =>
          cases hi : initialChild s with
          | none =>
              rw [descentT_eq_noInit hp hi]
              exact List.Sublist.cons₂ _ (List.nil_sublist _)
          | some i =>
              rw [descentT_eq_init hp hi]
              refine List.Sublist.cons₂ _ ?_
              refine (ih i (initialChild_mem hi) _).trans ?_
              have hmem : ((i, s :: anc) : PNode) ∈ pnChildren ((s, anc) : PNode) :=
                mem_pnChildren.mpr ⟨i, initialChild_mem hi, rfl⟩
              exact sublist_flatMap_of_mem (fun pn => allPNT pn.1 pn.2) hmem

theorem mem_descentT_sub {s : STree} {anc : List STree} {pn : PNode}
    (h : pn ∈ descentT s anc) : pn ∈ allPNT s anc :=
  (descentT_sublist anc).subset h

/-- Membership in the descent propagates from a child subtree of a
parallel entry state. -/
theorem mem_descentT_lift_par {s : STree} {anc : List STree} {c : STree}
    {x : PNode} (hsp : s.isParallel = true) (hcm : c ∈ s.children.toList)
    (hx : x ∈ descentT c (s :: anc)) : x ∈ descentT s anc := by
  rw [descentT_eq_par hsp]
  refine List.mem_cons.mpr (Or.inr (List.mem_flatMap.mpr ?_))
  exact ⟨(c, s :: anc), mem_pnChildren.mpr ⟨c, hcm, rfl⟩, hx⟩

/-- Membership in the descent propagates from the initial child subtree
of a non-parallel entry state. -/
theorem mem_descentT_lift_init {s i : STree} {anc : List STree}
    {x : PNode} (hsp : s.isParallel = false) (hi : initialChild s = some i)
    (hx : x ∈ descentT i (s :: anc)) : x ∈ descentT s anc := by
  rw [descentT_eq_init hsp hi]
  exact List.mem_cons.mpr (Or.inr hx)

/-- Case analysis on descent membership: the entry point, or a member
of one of the child descents actually taken. -/
theorem mem_descentT_cases {s : STree} {anc : List STree} {pn : PNode}
    (h : pn ∈ descentT s anc) :
    pn = (s, anc) ∨
      (s.isParallel = true ∧ ∃ c ∈ s.children.toList, pn ∈ descentT c (s :: anc)) ∨
      (s.isParallel = false ∧ ∃ i, initialChild s = some i ∧ pn ∈ descentT i (s :: anc)) := by
  cases hsp : s.isParallel with
  | true =>
      rw [descentT_eq_par hsp] at h
      rcases List.mem_cons.mp h with rfl | h
      · exact Or.inl rfl
      · rcases List.mem_flatMap.mp h with ⟨q, hq, hpn⟩
        rcases mem_pnChildren.mp hq with ⟨c, hcm, rfl⟩
        exact Or.inr (Or.inl ⟨rfl, c, hcm, hpn⟩)
  | false =>
      cases hi : initialChild s with
      | none =>
          rw [descentT_eq_noInit hsp hi] at h
          rcases List.mem_cons.mp h with rfl | h
          · exact Or.inl rfl
          · cases h
      | some i =>
          rw [descentT_eq_init hsp hi] at h
          rcases List.mem_cons.mp h with rfl | h
          · exact Or.inl rfl
          · exact Or.inr (Or.inr ⟨rfl, i, rfl, h⟩)

/-- Expansion in the descent: all children of a visited parallel state
are visited. -/
theorem mem_descentT_childPar {s : STree} :
    ∀ {anc : List STree} {pn cpn : PNode}, pn ∈ descentT s anc →
      pn.1.isParallel = true → cpn ∈ pnChildren pn → cpn ∈ descentT s anc := by
  induction s using stree_ind with
  | _ s ih =>
      intro anc pn cpn h hp hc
      rcases mem_descentT_cases h with rfl | ⟨hsp, c, hcm, hpn⟩ | ⟨hsp, i, hi, hpn⟩
      · rcases mem_pnChildren.mp hc with ⟨c, hcm, rfl⟩
        exact mem_descentT_lift_par hp hcm (mem_descentT_self _ _)
      · exact mem_descentT_lift_par hsp hcm (ih c hcm hpn hp hc)
      · exact mem_descentT_lift_init hsp hi (ih i (initialChild_mem hi) hpn hp hc)

/-- Expansion in the descent: the initial child of a visited
non-parallel state is visited. -/
theorem mem_descentT_childInit {s : STree} :
    ∀ {anc : List STree} {pn : PNode} {i : STree}, pn ∈ descentT s anc →
      pn.1.isParallel = false → initialChild pn.1 = some i →
      (i, pn.1 :: pn.2) ∈ descentT s anc := by
  induction s using stree_ind with
  | _ s ih =>
      intro anc pn i h hp hi
      rcases mem_descentT_cases h with rfl | ⟨hsp, c, hcm, hpn⟩ | ⟨hsp, j, hj, hpn⟩
      · exact mem_descentT_lift_init hp hi (mem_descentT_self _ _)
      · exact mem_descentT_lift_par hsp hcm (ih c hcm hpn hp hi)
      · exact mem_descentT_lift_init hsp hj (ih j (initialChild_mem hj) hpn hp hi)

/-- Every state visited by the descent other than the entry point has
its parent visited; the parent, when non-parallel, descends into the
state as its initial child. -/
theorem mem_descentT_parent {s : STree} :
    ∀ {anc : List STree} {pn : PNode}, pn ∈ descentT s anc →
      pn = (s, anc) ∨ ∃ q ∈ descentT s anc, pn.2 = q.1 :: q.2 ∧
        pn.1 ∈ q.1.children.toList ∧
        (q.1.isParallel = false → initialChild q.1 = some pn.1) := by
  induction s using stree_ind with
  | _ s ih =>
      intro anc pn h
      rcases mem_descentT_cases h with rfl | ⟨hsp, c, hcm, hpn⟩ | ⟨hsp, i, hi, hpn⟩
      · exact Or.inl rfl
      · rcases ih c hcm hpn with rfl | ⟨q2, hq2, h1, h2, h3⟩
        · exact Or.inr ⟨(s, anc), mem_descentT_self _ _, rfl, hcm,
            fun hf => by rw [hsp] at hf; cases hf⟩
        · exact Or.inr ⟨q2, mem_descentT_lift_par hsp hcm hq2, h1, h2, h3⟩
      · rcases ih i (initialChild_mem hi) hpn with rfl | ⟨q2, hq2, h1, h2, h3⟩
        · exact Or.inr ⟨(s, anc), mem_descentT_self _ _, rfl,
            initialChild_mem hi, fun _ => hi⟩
        · exact Or.inr ⟨q2, mem_descentT_lift_init hsp hi hq2, h1, h2, h3⟩

/-! ### Lookup lemmas -/

theorem lookupF_eq (n : String) (cs : SForest) :
    lookupF n cs = cs.toList.findSome? (lookupT n) := by
  induction cs using SForest.induct with
  | nil => rfl
  | cons c cs ih =>
      simp only [lookupF, SForest.toList, List.findSome?_cons]
      cases lookupT n c <;> simp [ih]

theorem lookupT_eq (n : String) (s : STree) :
    lookupT n s =
      if s.name = n then some (s, ([] : List STree))
      else
        match s.children.toList.findSome? (lookupT n) with
        | some (t, anc) => some (t, anc ++ [s])
        | none => none := by
  cases s with
  | mk nm p i c e x t => simp only [lookupT, lookupF_eq, STree.children]

theorem lookupT_name {s : STree} :
    ∀ {n : String} {pn : PNode}, lookupT n s = some pn → pn.1.name = n := by
  induction s using stree_ind with
  | _ s ih =>
      intro n pn h
      rw [lookupT_eq] at h
      by_cases hn : s.name = n
      · rw [if_pos hn] at h
        cases h; exact hn
      · rw [if_neg hn] at h
        cases hf : s.children.toList.findSome? (lookupT n) with
        | none => rw [hf] at h; cases h
        | some r =>
            rw [hf] at h
            rcases r with ⟨t, anc⟩
            cases h
            rcases List.exists_of_findSome?_eq_some hf with ⟨c, hcm, hc⟩
            have h2 := ih c hcm hc
            exact h2

theorem lookupT_mem {s : STree} :
    ∀ {n : String} {anc anc0 : List STree} {t : STree},
      lookupT n s = some (t, anc0) → (t, anc0 ++ anc) ∈ allPNT s anc := by
  induction s using stree_ind with
  | _ s ih =>
      intro n anc anc0 t h
      rw [lookupT_eq] at h
      by_cases hn : s.name = n
      · rw [if_pos hn] at h
        cases h
        exact mem_allPNT_self _ _
      · rw [if_neg hn] at h
        cases hf : s.children.toList.findSome? (lookupT n) with
        | none => rw [hf] at h; cases h
        | some r =>
            rw [hf] at h
            rcases r with ⟨t2, anc2⟩
            simp only [Option.some.injEq, Prod.mk.injEq] at h
            rcases h with ⟨rfl, rfl⟩
            rcases List.exists_of_findSome?_eq_some hf with ⟨c, hcm, hc⟩
            have hsub := @ih c hcm n (s :: anc) _ _ hc
            rw [allPNT_eq]
            refine List.mem_cons.mpr (Or.inr (List.mem_flatMap.mpr ?_))
            refine ⟨(c, s :: anc), mem_pnChildren.mpr ⟨c, hcm, rfl⟩, ?_⟩
            simpa [List.append_assoc] using hsub

/-- A successful `inState` lookup returns a state of the machine. -/
theorem lookupT_mem_allPN {root : STree} {n : String} {pn : PNode}
    (h : lookupT n root = some pn) : pn ∈ allPN root := by
  rcases pn with ⟨t, anc0⟩
  have h2 := @lookupT_mem root n [] anc0 t h
  simpa using h2

/-! ### Write lists: the effect of enter and leave on `mActive` -/

/-- Apply a list of writes to an `mActive` map, earliest first (a later
write to the same name wins). -/
def applyW (f : String → Option String) :
    List (String × Option String) → String → Option String
  | [] => f
  | (k, v) :: ws => applyW (fun m => if m = k then v else f m) ws

theorem applyW_append (a b : List (String × Option String))
    (f : String → Option String) :
    applyW f (a ++ b) = applyW (applyW f a) b := by
  induction a generalizing f with
  | nil => rfl
  | cons kv a ih => rcases kv with ⟨k, v⟩; simp [applyW, ih]

/-- Evaluating a write list all whose values agree with a per-name
function `W`. -/
theorem applyW_eval (W : String → Option String) :
    ∀ (ws : List (String × Option String)) (f : String → Option String)
      (n : String), (∀ kv ∈ ws, kv.2 = W kv.1) →
      applyW f ws n = if n ∈ ws.map Prod.fst then W n else f n := by
  intro ws
  induction ws with
  | nil => simp [applyW]
  | cons kv ws ih =>
      intro f n h
      rcases kv with ⟨k, v⟩
      rw [applyW, ih _ n (fun kv hkv => h kv (List.mem_cons_of_mem _ hkv))]
      by_cases hmem : n ∈ ws.map Prod.fst
      · simp [hmem]
      · by_cases hk : n = k
        · subst hk
          have hv : v = W n := h (n, v) (List.mem_cons_self _ _)
          simp [hmem, hv]
        · simp [hmem, hk]

/-- The `mActive` writes performed by `StateImpl::enter`: point the
state at its initial child (non-parallel case), point the non-parallel
parent at the state. -/
def pnWrites (pn : PNode) : List (String × Option String) :=
  (if pn.1.isParallel then []
   else
     match initialChild pn.1 with
     | some i => [(pn.1.name, some i.name)]
     | none => []) ++
  (match pn.2 with
   | [] => []
   | p :: _ => if p.isParallel then [] else [(p.name, some pn.1.name)])

/-- The `mActive` writes performed by `StateImpl::leave`: clear the
non-parallel parent's pointer. -/
def pnClear (pn : PNode) : List (String × Option String) :=
  match pn.2 with
  | [] => []
  | p :: _ => if p.isParallel then [] else [(p.name, none)]

theorem stateEnter_act (ms : MState) (pn : PNode) :
    (stateEnter ms pn).act = applyW ms.act (pnWrites pn) := by
  rcases pn with ⟨s, anc⟩
  simp only [stateEnter, pnWrites, MState.setAct]
  cases hp : s.isParallel with
  | true =>
      cases anc with
      | nil => simp [applyW]
      | cons p rest => cases hpp : p.isParallel <;> simp [applyW, hpp]
  | false =>
      cases hi : initialChild s with
      | none =>
          cases anc with
          | nil => simp [applyW]
          | cons p rest => cases hpp : p.isParallel <;> simp [applyW, hpp]
      | some i =>
          cases anc with
          | nil => simp [applyW]
          | cons p rest => cases hpp : p.isParallel <;> simp [applyW, hpp]

theorem stateEnter_out (ms : MState) (pn : PNode) :
    (stateEnter ms pn).out = ms.out ++ pn.1.onEntry := by
  rcases pn with ⟨s, anc⟩
  simp only [stateEnter, MState.setAct]
  cases hp : s.isParallel <;>
    cases hi : initialChild s <;>
      (cases anc with
       | nil => simp
       | cons p rest => cases hpp : p.isParallel <;> simp [hpp])

theorem stateEnter_flag (ms : MState) (pn : PNode) :
    (stateEnter ms pn).flag = ms.flag := by
  rcases pn with ⟨s, anc⟩
  simp only [stateEnter, MState.setAct]
  cases hp : s.isParallel <;>
    cases hi : initialChild s <;>
      (cases anc with
       | nil => simp
       | cons p rest => cases hpp : p.isParallel <;> simp [hpp])

theorem stateEnter_queue (ms : MState) (pn : PNode) :
    (stateEnter ms pn).queue = ms.queue := by
  rcases pn with ⟨s, anc⟩
  simp only [stateEnter, MState.setAct]
  cases hp : s.isParallel <;>
    cases hi : initialChild s <;>
      (cases anc with
       | nil => simp
       | cons p rest => cases hpp : p.isParallel <;> simp [hpp])

theorem stateEnter_inTop (ms : MState) (pn : PNode) :
    (stateEnter ms pn).inTop = ms.inTop := by
  rcases pn with ⟨s, anc⟩
  simp only [stateEnter, MState.setAct]
  cases hp : s.isParallel <;>
    cases hi : initialChild s <;>
      (cases anc with
       | nil => simp
       | cons p rest => cases hpp : p.isParallel <;> simp [hpp])

theorem stateLeave_act (ms : MState) (pn : PNode) :
    (stateLeave ms pn).act = applyW ms.act (pnClear pn) := by
  rcases pn with ⟨s, anc⟩
  simp only [stateLeave, pnClear, MState.setAct]
  cases anc with
  | nil => simp [applyW]
  | cons p rest => cases hpp : p.isParallel <;> simp [applyW, hpp]

theorem stateLeave_out (ms : MState) (pn : PNode) :
    (stateLeave ms pn).out = ms.out ++ pn.1.onExit := by
  rcases pn with ⟨s, anc⟩
  simp only [stateLeave, MState.setAct]
  cases anc with
  | nil => simp
  | cons p rest => cases hpp : p.isParallel <;> simp [hpp]

theorem stateLeave_flag (ms : MState) (pn : PNode) :
    (stateLeave ms pn).flag = ms.flag := by
  rcases pn with ⟨s, anc⟩
  simp only [stateLeave, MState.setAct]
  cases anc with
  | nil => simp
  | cons p rest => cases hpp : p.isParallel <;> simp [hpp]

theorem stateLeave_queue (ms : MState) (pn : PNode) :
    (stateLeave ms pn).queue = ms.queue := by
  rcases pn with ⟨s, anc⟩
  simp only [stateLeave, MState.setAct]
  cases anc with
  | nil => simp
  | cons p rest => cases hpp : p.isParallel <;> simp [hpp]

theorem stateLeave_inTop (ms : MState) (pn : PNode) :
    (stateLeave ms pn).inTop = ms.inTop := by
  rcases pn with ⟨s, anc⟩
  simp only [stateLeave, MState.setAct]
  cases anc with
  | nil => simp
  | cons p rest => cases hpp : p.isParallel <;> simp [hpp]

/-! ### Folds of enter and leave over a list of states -/

theorem foldl_stateEnter_out (l : List PNode) (ms : MState) :
    (l.foldl stateEnter ms).out = ms.out ++ l.flatMap (fun pn => pn.1.onEntry) := by
  induction l generalizing ms with
  | nil => simp
  | cons pn l ih => simp [ih, stateEnter_out, List.append_assoc]

theorem foldl_stateEnter_act (l : List PNode) (ms : MState) :
    (l.foldl stateEnter ms).act = applyW ms.act (l.flatMap pnWrites) := by
  induction l generalizing ms with
  | nil => simp [applyW]
  | cons pn l ih => simp [ih, stateEnter_act, applyW_append]

theorem foldl_stateEnter_flag (l : List PNode) (ms : MState) :
    (l.foldl stateEnter ms).flag = ms.flag := by
  induction l generalizing ms with
  | nil => rfl
  | cons pn l ih => simp [ih, stateEnter_flag]

theorem foldl_stateEnter_queue (l : List PNode) (ms : MState) :
    (l.foldl stateEnter ms).queue = ms.queue := by
  induction l generalizing ms with
  | nil => rfl
  | cons pn l ih => simp [ih, stateEnter_queue]

theorem foldl_stateEnter_inTop (l : List PNode) (ms : MState) :
    (l.foldl stateEnter ms).inTop = ms.inTop := by
  induction l generalizing ms with
  | nil => rfl
  | cons pn l ih => simp [ih, stateEnter_inTop]

theorem foldl_stateLeave_out (l : List PNode) (ms : MState) :
    (l.foldl stateLeave ms).out = ms.out ++ l.flatMap (fun pn => pn.1.onExit) := by
  induction l generalizing ms with
  | nil => simp
  | cons pn l ih => simp [ih, stateLeave_out, List.append_assoc]

theorem foldl_stateLeave_act (l : List PNode) (ms : MState) :
    (l.foldl stateLeave ms).act = applyW ms.act (l.flatMap pnClear) := by
  induction l generalizing ms with
  | nil => simp [applyW]
  | cons pn l ih => simp [ih, stateLeave_act, applyW_append]

theorem foldl_stateLeave_flag (l : List PNode) (ms : MState) :
    (l.foldl stateLeave ms).flag = ms.flag := by
  induction l generalizing ms with
  | nil => rfl
  | cons pn l ih => simp [ih, stateLeave_flag]

theorem foldl_stateLeave_queue (l : List PNode) (ms : MState) :
    (l.foldl stateLeave ms).queue = ms.queue := by
  induction l generalizing ms with
  | nil => rfl
  | cons pn l ih => simp [ih, stateLeave_queue]

theorem foldl_stateLeave_inTop (l : List PNode) (ms : MState) :
    (l.foldl stateLeave ms).inTop = ms.inTop := by
  induction l generalizing ms with
  | nil => rfl
  | cons pn l ih => simp [ih, stateLeave_inTop]

/-! ### The enter loop realises the recursive descent -/

theorem sumSize_eq_zero {l : List PNode} (h : sumSize l = 0) : l = [] := by
  cases l with
  | nil => rfl
  | cons pn l =>
      rw [sumSize_cons] at h
      have := size_pos pn.1
      omega

/-- The worklist loop of `StateMachine::enter` performs exactly the
recursive initial descent of each worklist entry, in order. -/
theorem enterLoop_eq :
    ∀ (fuel : Nat) (ms : MState) (l : List PNode), sumSize l ≤ fuel →
      enterLoop fuel ms l =
        (l.flatMap (fun pn => descentT pn.1 pn.2)).foldl stateEnter ms := by
  intro fuel
  induction fuel with
  | zero =>
      intro ms l h
      rw [sumSize_eq_zero (Nat.le_zero.mp h)]
      rfl
  | succ fuel ih =>
      intro ms l h
      cases l with
      | nil => rfl
      | cons pn rest =>
          rw [sumSize_cons] at h
          rw [enterLoop]
          cases hp : pn.1.isParallel with
          | true =>
              have hs : sumSize (pnChildren pn ++ rest) ≤ fuel := by
                rw [sumSize_append, sumSize_pnChildren]
                have := size_eq pn.1
                omega
              rw [if_pos rfl, ih _ _ hs]
              simp [List.flatMap_cons, List.flatMap_append, descentT_eq_par hp,
                List.foldl_append]
          | false =>
              rw [if_neg (by simp)]
              cases hi : initialChild pn.1 with
              | some i =>
                  have hs : sumSize ((i, pn.1 :: pn.2) :: rest) ≤ fuel := by
                    rw [sumSize_cons]
                    have h0 : ((i, pn.1 :: pn.2) : PNode).1.size = i.size := rfl
                    rw [h0]
                    have h1 := mem_listSize_le (initialChild_mem hi)
                    have h2 := size_eq pn.1
                    omega
                  rw [ih _ _ hs]
                  simp [List.flatMap_cons, descentT_eq_init hp hi,
                    List.foldl_append]
              | none =>
                  have hs : sumSize rest ≤ fuel := by
                    have := size_pos pn.1
                    omega
                  rw [ih _ _ hs]
                  simp [List.flatMap_cons, descentT_eq_noInit hp hi,
                    List.foldl_append]

/-- The entry callback labels of the initial descent, document order. -/
def entryLabels (root : STree) : List String :=
  (descentT root []).flatMap (fun pn => pn.1.onEntry)

/-- The `mActive` writes of the initial descent, in order. -/
def enterWrites (root : STree) : List (String × Option String) :=
  (descentT root []).flatMap pnWrites

theorem machineEnter_eq {root : STree} {ms : MState} (h : ms.flag = false) :
    machineEnter root ms =
      (descentT root []).foldl stateEnter { ms with flag := true } := by
  unfold machineEnter
  rw [if_neg (by simp [h])]
  rw [enterLoop_eq root.size _ _ (by simp [sumSize])]
  simp

theorem machineEnter_out {root : STree} {ms : MState} (h : ms.flag = false) :
    (machineEnter root ms).out = ms.out ++ entryLabels root := by
  rw [machineEnter_eq h, foldl_stateEnter_out, entryLabels]

theorem machineEnter_flag {root : STree} {ms : MState} (h : ms.flag = false) :
    (machineEnter root ms).flag = true := by
  rw [machineEnter_eq h, foldl_stateEnter_flag]

theorem machineEnter_queue {root : STree} {ms : MState} (h : ms.flag = false) :
    (machineEnter root ms).queue = ms.queue := by
  rw [machineEnter_eq h, foldl_stateEnter_queue]

theorem machineEnter_inTop {root : STree} {ms : MState} (h : ms.flag = false) :
    (machineEnter root ms).inTop = ms.inTop := by
  rw [machineEnter_eq h, foldl_stateEnter_inTop]

theorem machineEnter_act {root : STree} {ms : MState} (h : ms.flag = false) :
    (machineEnter root ms).act = applyW ms.act (enterWrites root) := by
  rw [machineEnter_eq h, foldl_stateEnter_act, enterWrites]

/-! ### The configuration reached by the initial descent -/

/-- The names of a node list. -/
def pnNames (l : List PNode) : List String := l.map (fun pn => pn.1.name)

/-- The `mActive` map reached by entering a fresh machine: each
non-parallel entered state points at its initial child. -/
def enterW (root : STree) (n : String) : Option String :=
  match (descentT root []).find? (fun pn => pn.1.name = n) with
  | some pn =>
      if pn.1.isParallel then none
      else (initialChild pn.1).map STree.name
  | none => none

theorem descent_names_nodup {root : STree} (hN : (allNames root).Nodup) :
    (pnNames (descentT root [])).Nodup :=
  hN.sublist ((descentT_sublist []).map _)

theorem mem_key_of_pnWrites {root : STree} {pn : PNode}
    {kv : String × Option String} (hpn : pn ∈ descentT root [])
    (hkv : kv ∈ pnWrites pn) :
    kv.1 ∈ (enterWrites root).map Prod.fst :=
  List.mem_map.mpr ⟨kv, List.mem_flatMap.mpr ⟨pn, hpn, hkv⟩, rfl⟩

/-- The own write of a non-parallel state with an initial child. -/
theorem own_write_mem {pn : PNode} {i : STree}
    (hp : pn.1.isParallel = false) (hi : initialChild pn.1 = some i) :
    (pn.1.name, some i.name) ∈ pnWrites pn := by
  rcases pn with ⟨s, anc⟩
  simp only [pnWrites]
  refine List.mem_append.mpr (Or.inl ?_)
  simp only [STree.isParallel] at hp ⊢
  rw [if_neg (by simp [hp])]
  rw [show initialChild (s, anc).1 = some i from hi]
  simp

/-- The parent write of a state with a non-parallel parent. -/
theorem parent_write_mem {pn : PNode} {p : STree} {rest : List STree}
    (h : pn.2 = p :: rest) (hpp : p.isParallel = false) :
    (p.name, some pn.1.name) ∈ pnWrites pn := by
  rcases pn with ⟨s, anc⟩
  simp only at h
  subst h
  simp only [pnWrites]
  refine List.mem_append.mpr (Or.inr ?_)
  rw [if_neg (by simp [hpp])]
  simp

/-- Shape of the writes of one entered state. -/
theorem mem_pnWrites {pn : PNode} {kv : String × Option String}
    (h : kv ∈ pnWrites pn) :
    (pn.1.isParallel = false ∧ ∃ i, initialChild pn.1 = some i ∧
        kv = (pn.1.name, some i.name)) ∨
      (∃ p rest, pn.2 = p :: rest ∧ p.isParallel = false ∧
        kv = (p.name, some pn.1.name)) := by
  rcases pn with ⟨s, anc⟩
  simp only [pnWrites] at h
  rcases List.mem_append.mp h with h | h
  · split at h
    · simp at h
    next hp =>
      split at h
      next i hi =>
        simp only [List.mem_singleton] at h
        subst h
        exact Or.inl ⟨by simpa using hp, i, hi, rfl⟩
      next => simp at h
  · cases anc with
    | nil => exact absurd h (List.not_mem_nil kv)
    | cons p tail =>
        replace h : kv ∈ (if p.isParallel = true then []
            else [(p.name, some s.name)]) := h
        split at h
        · simp at h
        next hpp =>
          simp only [List.mem_singleton] at h
          subst h
          exact Or.inr ⟨p, tail, rfl, by simpa using hpp, rfl⟩

/-- Every write of the initial descent agrees with `enterW`. -/
theorem enterWrites_good {root : STree} (hN : (allNames root).Nodup) :
    ∀ kv ∈ enterWrites root, kv.2 = enterW root kv.1 := by
  intro kv hkv
  rcases List.mem_flatMap.mp hkv with ⟨pn, hpn, hw⟩
  rcases mem_pnWrites hw with ⟨hp, i, hi, rfl⟩ | ⟨p, rest, hanc, hpp, rfl⟩
  · unfold enterW
    rw [find?_name_nodup (descent_names_nodup hN) hpn]
    simp [hp, hi]
  · rcases mem_descentT_parent hpn with heq | ⟨q, hq, h1, h2, h3⟩
    · rw [heq] at hanc; cases hanc
    · rw [hanc] at h1
      have hpq : p = q.1 := by
        injection h1
      subst hpq
      have hinit := h3 hpp
      unfold enterW
      have hfind := find?_name_nodup (descent_names_nodup hN) hq
      rw [hfind]
      simp [hpp, hinit]

/-- A name that receives no write stays inactive under `enterW`. -/
theorem enterW_none_of_not_key {root : STree} {n : String}
    (h : n ∉ (enterWrites root).map Prod.fst) : enterW root n = none := by
  unfold enterW
  cases hf : (descentT root []).find? (fun pn => pn.1.name = n) with
  | none => rfl
  | some pn =>
      have hmem := List.mem_of_find?_eq_some hf
      have hname : pn.1.name = n := by simpa using List.find?_some hf
      show (if pn.1.isParallel = true then none
            else (initialChild pn.1).map STree.name) = none
      cases hp : pn.1.isParallel with
      | true => rw [if_pos rfl]
      | false =>
          rw [if_neg (by simp)]
          cases hi : initialChild pn.1 with
          | none => rfl
          | some i =>
              exfalso
              refine h ?_
              have hw := own_write_mem hp hi
              have := mem_key_of_pnWrites hmem hw
              rwa [hname] at this

/-- After `enter()` on a fresh machine, `mActive` is exactly `enterW`. -/
theorem machineEnter_fresh_act {root : STree} (hN : (allNames root).Nodup) :
    ∀ n, (machineEnter root freshMS).act n = enterW root n := by
  intro n
  rw [machineEnter_act rfl]
  rw [applyW_eval (enterW root) _ _ n (enterWrites_good hN)]
  by_cases hmem : n ∈ (enterWrites root).map Prod.fst
  · rw [if_pos hmem]
  · rw [if_neg hmem, enterW_none_of_not_key hmem]
    rfl

theorem activeUp_congr {ms ms2 : MState} (ha : ∀ n, ms.act n = ms2.act n)
    (hf : ms.flag = ms2.flag) :
    ∀ (s : STree) (anc : List STree), activeUp ms s anc = activeUp ms2 s anc := by
  intro s anc
  induction anc generalizing s with
  | nil => simpa [activeUp] using hf
  | cons p rest ih => simp [activeUp, ha, ih]

theorem activeUp_false {ms : MState} (ha : ∀ n, ms.act n = none)
    (hf : ms.flag = false) :
    ∀ (s : STree) (anc : List STree), activeUp ms s anc = false := by
  intro s anc
  induction anc generalizing s with
  | nil => simpa [activeUp] using hf
  | cons p rest ih => simp [activeUp, ha, ih]

/-- The value of `enterW` at a descent state. -/
theorem enterW_at {root : STree} (hN : (allNames root).Nodup) {pn : PNode}
    (h : pn ∈ descentT root []) :
    enterW root pn.1.name =
      if pn.1.isParallel then none
      else (initialChild pn.1).map STree.name := by
  unfold enterW
  rw [find?_name_nodup (descent_names_nodup hN) h]

theorem pnNames_pnChildren (pn : PNode) :
    pnNames (pnChildren pn) = pn.1.children.toList.map STree.name := by
  simp [pnNames, pnChildren, List.map_map]

theorem pnNames_flatMap (l : List PNode) (f : PNode → List PNode) :
    pnNames (l.flatMap f) = l.flatMap (fun a => pnNames (f a)) := by
  induction l with
  | nil => rfl
  | cons a l ih =>
      simp only [List.flatMap_cons, pnNames, List.map_append] at ih ⊢
      rw [ih]

/-- The children of any state of the machine have pairwise distinct
names. -/
theorem children_names_nodup {root : STree} (hN : (allNames root).Nodup)
    {pn : PNode} (h : pn ∈ allPN root) :
    (pn.1.children.toList.map STree.name).Nodup := by
  rw [← pnNames_pnChildren]
  have h1 : List.Sublist (pnNames (pnChildren pn))
      (pnNames ((pnChildren pn).flatMap (fun q => allPNT q.1 q.2))) := by
    rw [pnNames_flatMap]
    refine map_sublist_flatMap ?_
    intro q hq
    exact List.mem_map.mpr ⟨(q.1, q.2), mem_allPNT_self _ _, rfl⟩
  have h2 : List.Sublist (pnNames ((pnChildren pn).flatMap (fun q => allPNT q.1 q.2)))
      (pnNames (allPNT pn.1 pn.2)) := by
    rw [allPNT_eq pn.1 pn.2]
    simp only [pnNames, List.map_cons]
    exact List.sublist_cons_self _ _
  have h3 : List.Sublist (pnNames (allPNT pn.1 pn.2)) (allNames root) :=
    (allPNT_sublist h).map _
  exact hN.sublist (h1.trans (h2.trans h3))

/-- On a state list with distinct names, searching by the name of a
member finds that member. -/
theorem find?_sname_nodup {l : List STree} (hN : (l.map STree.name).Nodup)
    {c : STree} (h : c ∈ l) :
    l.find? (fun x => x.name = c.name) = some c := by
  induction l with
  | nil => cases h
  | cons a l ih =>
      rw [List.map_cons, List.nodup_cons] at hN
      rcases List.mem_cons.mp h with rfl | h
      · simp [List.find?]
      · have hne : (a.name = c.name) = False := by
          simp only [eq_iff_iff, iff_false]
          intro he
          exact hN.1 (he ▸ List.mem_map.mpr ⟨c, h, rfl⟩)
        simp [List.find?, hne, ih hN.2 h]

/-- Every state visited by the initial descent is active in any state
whose configuration is `enterW`. -/
theorem descent_active {root : STree} (hN : (allNames root).Nodup)
    {ms : MState} (hact : ∀ n, ms.act n = enterW root n)
    (hflag : ms.flag = true) :
    ∀ pn ∈ descentT root [], activeUp ms pn.1 pn.2 = true := by
  have key : ∀ k : Nat, ∀ pn ∈ descentT root [], pn.2.length ≤ k →
      activeUp ms pn.1 pn.2 = true := by
    intro k
    induction k with
    | zero =>
        intro pn hpn hl
        rcases mem_descentT_parent hpn with rfl | ⟨q, hq, h1, h2, h3⟩
        · simpa [activeUp] using hflag
        · rw [h1] at hl; simp at hl
    | succ k ih =>
        intro pn hpn hl
        rcases mem_descentT_parent hpn with rfl | ⟨q, hq, h1, h2, h3⟩
        · simpa [activeUp] using hflag
        · rcases pn with ⟨s, anc⟩
          simp only at h1
          subst h1
          cases hqp : q.1.isParallel with
          | false =>
              have hinit := h3 hqp
              have : ms.act q.1.name = some s.name := by
                rw [hact, enterW,
                  find?_name_nodup (descent_names_nodup hN) hq]
                simp [hqp, hinit]
              simp [activeUp, this]
          | true =>
              have hq2 : activeUp ms q.1 q.2 = true := by
                refine ih q hq ?_
                simp at hl
                omega
              simp [activeUp, hqp, hq2]
  exact fun pn hpn => key pn.2.length pn hpn le_rfl

/-- Under the configuration reached by `enter()` from fresh (`enterW`),
the collection loop of `StateMachine::leave` visits exactly the
descent, in its order; the exit list built by prepending is its
reverse. -/
theorem leaveCollect_eq {root : STree} (hN : (allNames root).Nodup)
    {ms : MState} (hact : ∀ n, ms.act n = enterW root n)
    (hflag : ms.flag = true) :
    ∀ (fuel : Nat) (acc l : List PNode), sumSize l ≤ fuel →
      (∀ pn ∈ l, pn ∈ descentT root []) →
      leaveCollect ms fuel acc l =
        (l.flatMap (fun pn => descentT pn.1 pn.2)).reverse ++ acc := by
  intro fuel
  induction fuel with
  | zero =>
      intro acc l h hm
      rw [sumSize_eq_zero (Nat.le_zero.mp h)]
      rfl
  | succ fuel ih =>
      intro acc l h hm
      cases l with
      | nil => rfl
      | cons pn rest =>
          rw [sumSize_cons] at h
          have hmem := hm pn (List.mem_cons_self _ _)
          have hrest : ∀ q ∈ rest, q ∈ descentT root [] :=
            fun q hq => hm q (List.mem_cons_of_mem _ hq)
          have hac := descent_active hN hact hflag pn hmem
          rw [leaveCollect]
          rw [if_neg (by simp [hac])]
          cases hp : pn.1.isParallel with
          | true =>
              rw [if_pos rfl]
              have hs : sumSize (pnChildren pn ++ rest) ≤ fuel := by
                rw [sumSize_append, sumSize_pnChildren]
                have := size_eq pn.1
                omega
              rw [ih _ _ hs (by
                intro q hq
                rcases List.mem_append.mp hq with hq | hq
                · exact mem_descentT_childPar hmem hp hq
                · exact hrest q hq)]
              simp [List.flatMap_cons, List.flatMap_append, descentT_eq_par hp,
                List.reverse_append, List.append_assoc]
          | false =>
              rw [if_neg (by simp)]
              cases hi : initialChild pn.1 with
              | none =>
                  have hactv : ms.act pn.1.name = none := by
                    rw [hact, enterW_at hN hmem]
                    simp [hp, hi]
                  simp only [hactv]
                  have hs : sumSize rest ≤ fuel := by
                    have := size_pos pn.1
                    omega
                  rw [ih _ _ hs hrest]
                  simp [List.flatMap_cons, descentT_eq_noInit hp hi,
                    List.reverse_append, List.append_assoc]
              | some i =>
                  have hactv : ms.act pn.1.name = some i.name := by
                    rw [hact, enterW_at hN hmem]
                    simp [hp, hi]
                  simp only [hactv]
                  have hfind : pn.1.children.toList.find?
                      (fun c => c.name = i.name) = some i :=
                    find?_sname_nodup
                      (children_names_nodup hN (mem_descentT_sub hmem))
                      (initialChild_mem hi)
                  simp only [hfind]
                  have hs : sumSize ((i, pn.1 :: pn.2) :: rest) ≤ fuel := by
                    rw [sumSize_cons]
                    have h0 : ((i, pn.1 :: pn.2) : PNode).1.size = i.size := rfl
                    rw [h0]
                    have h1 := mem_listSize_le (initialChild_mem hi)
                    have h2 := size_eq pn.1
                    omega
                  rw [ih _ _ hs (by
                    intro q hq
                    rcases List.mem_cons.mp hq with rfl | hq
                    · exact mem_descentT_childInit hmem hp hi
                    · exact hrest q hq)]
                  simp [List.flatMap_cons, descentT_eq_init hp hi,
                    List.reverse_append, List.append_assoc]

/-- The exit callback labels of `leave()` right after `enter()` from
fresh: the exit callbacks of each entered state, in reverse document
order. -/
def exitLabels (root : STree) : List String :=
  ((descentT root []).reverse).flatMap (fun pn => pn.1.onExit)

/-- The `mActive` clears performed by that `leave()`. -/
def leaveClears (root : STree) : List (String × Option String) :=
  ((descentT root []).reverse).flatMap pnClear

theorem pnClear_val {pn : PNode} : ∀ kv ∈ pnClear pn, kv.2 = none := by
  intro kv h
  rcases pn with ⟨s, anc⟩
  cases anc with
  | nil => exact absurd h (List.not_mem_nil kv)
  | cons p tail =>
      replace h : kv ∈ (if p.isParallel = true then []
          else [(p.name, none)]) := h
      split at h
      · simp at h
      · simp only [List.mem_singleton] at h
        subst h
        rfl

theorem clear_write_mem {pn : PNode} {p : STree} {rest : List STree}
    (h : pn.2 = p :: rest) (hpp : p.isParallel = false) :
    (p.name, none) ∈ pnClear pn := by
  rcases pn with ⟨s, anc⟩
  simp only at h
  subst h
  show (p.name, none) ∈ (if p.isParallel = true then [] else [(p.name, none)])
  rw [if_neg (by simp [hpp])]
  simp

/-- A name `leave()` does not clear was never set by the descent. -/
theorem enterW_none_of_not_clearKey {root : STree} {n : String}
    (h : n ∉ (leaveClears root).map Prod.fst) : enterW root n = none := by
  unfold enterW
  cases hf : (descentT root []).find? (fun pn => pn.1.name = n) with
  | none => rfl
  | some pn =>
      have hmem := List.mem_of_find?_eq_some hf
      have hname : pn.1.name = n := by simpa using List.find?_some hf
      show (if pn.1.isParallel = true then none
            else (initialChild pn.1).map STree.name) = none
      cases hp : pn.1.isParallel with
      | true => rw [if_pos rfl]
      | false =>
          rw [if_neg (by simp)]
          cases hi : initialChild pn.1 with
          | none => rfl
          | some i =>
              exfalso
              refine h ?_
              have hchild := mem_descentT_childInit hmem hp hi
              have hw : (pn.1.name, none) ∈ pnClear ((i, pn.1 :: pn.2) : PNode) :=
                clear_write_mem rfl hp
              refine List.mem_map.mpr ⟨(pn.1.name, none), ?_, hname⟩
              exact List.mem_flatMap.mpr
                ⟨(i, pn.1 :: pn.2), List.mem_reverse.mpr hchild, hw⟩

/-- `enter()` then `leave()` from a fresh machine restores the fresh
state exactly, having logged the entry labels in document order and the
exit labels in reverse document order. -/
theorem enter_then_leave {root : STree} (hN : (allNames root).Nodup) :
    machineLeave root (machineEnter root freshMS) =
      { freshMS with out := entryLabels root ++ exitLabels root } := by
  have hflag : (machineEnter root freshMS).flag = true := machineEnter_flag rfl
  have hact := machineEnter_fresh_act hN
  unfold machineLeave
  rw [if_neg (by simp [hflag])]
  have hone : sumSize [((root, []) : PNode)] ≤ root.size := by
    simp [sumSize]
  rw [leaveCollect_eq hN hact hflag root.size [] [(root, [])] hone
    (by
      intro pn hpn
      rcases List.mem_singleton.mp hpn with rfl
      exact mem_descentT_self _ _)]
  have hl : ((([((root, []) : PNode)].flatMap
      (fun pn => descentT pn.1 pn.2)).reverse) ++ ([] : List PNode)) =
      (descentT root []).reverse := by
    simp
  rw [hl]
  refine MState.ext rfl ?_ ?_ ?_ ?_
  · show ((descentT root []).reverse.foldl stateLeave
        (machineEnter root freshMS)).inTop = freshMS.inTop
    rw [foldl_stateLeave_inTop]
    exact machineEnter_inTop rfl
  · show ((descentT root []).reverse.foldl stateLeave
        (machineEnter root freshMS)).act = freshMS.act
    funext n
    rw [foldl_stateLeave_act]
    rw [applyW_eval (fun _ => none) _ _ n (by
      intro kv hkv
      rcases List.mem_flatMap.mp hkv with ⟨pn, _, hw⟩
      exact pnClear_val kv hw)]
    by_cases hk : n ∈ ((descentT root []).reverse.flatMap pnClear).map Prod.fst
    · rw [if_pos hk]
      rfl
    · rw [if_neg hk, hact n]
      exact enterW_none_of_not_clearKey hk
  · show ((descentT root []).reverse.foldl stateLeave
        (machineEnter root freshMS)).queue = freshMS.queue
    rw [foldl_stateLeave_queue]
    exact machineEnter_queue rfl
  · show ((descentT root []).reverse.foldl stateLeave
        (machineEnter root freshMS)).out = freshMS.out ++ (entryLabels root ++ exitLabels root)
    rw [foldl_stateLeave_out, machineEnter_out rfl]
    simp [exitLabels, freshMS]

/-! ### Claim theorems: enter and leave -/

/-- C5: `enter()` on an inactive machine performs the initial descent
in document order — it enters the root, then recursively the single
initial child of each non-parallel state and all children (declaration
order) of each parallel state, logging each entered state's `on_entry`
callbacks at that moment (`entryLabels` is exactly that descent's
entry-callback sequence); and on the `ChildOnEntry` topology
`S1{initial, S1A, S1B{initial, S1Bi, S1Bii, S1Biii{initial}}, S1C},
S2, S3` the entry callback sequence is exactly
`["S1", "S1B", "S1Biii"]`. -/
theorem c5_enter_initial_descent :
    (∀ (root : STree) (ms : MState), ms.flag = false →
      (machineEnter root ms).out = ms.out ++ entryLabels root) ∧
    (machineEnter mChild freshMS).out = ["S1", "S1B", "S1Biii"] :=
  ⟨fun _ _ h => machineEnter_out h, by decide⟩

/-- Witness for C5 at the concrete `ChildOnEntry` machine. -/
theorem c5_witness :
    (machineEnter mChild freshMS).out = freshMS.out ++ entryLabels mChild :=
  c5_enter_initial_descent.1 mChild freshMS rfl

/-- C6: for every valid topology (distinct state names), `enter()` then
`leave()` from a fresh machine leaves no state active, and the exit
callbacks logged are exactly the `on_exit` callbacks of the states
whose `on_entry` ran during `enter()` (the descent states), one block
per such state, in reverse document order. -/
theorem c6_enter_leave :
    ∀ root : STree, (allNames root).Nodup →
      (∀ n, inStateB root
          (machineLeave root (machineEnter root freshMS)) n = false) ∧
      (machineLeave root (machineEnter root freshMS)).out =
        entryLabels root ++
          (descentT root []).reverse.flatMap (fun pn => pn.1.onExit) := by
  intro root hN
  rw [enter_then_leave hN]
  constructor
  · intro n
    unfold inStateB
    cases h : lookupT n root with
    | none => rfl
    | some pn =>
        rcases pn with ⟨s, anc⟩
        exact activeUp_false (fun _ => rfl) rfl s anc
  · rfl

/-- Witness for C6 at the concrete `ChildOnEntry` machine. -/
theorem c6_witness :
    inStateB mChild (machineLeave mChild (machineEnter mChild freshMS)) "S1" =
        false ∧
      (machineLeave mChild (machineEnter mChild freshMS)).out =
        entryLabels mChild ++
          (descentT mChild []).reverse.flatMap (fun pn => pn.1.onExit) :=
  ⟨(c6_enter_leave mChild (by decide)).1 "S1",
    (c6_enter_leave mChild (by decide)).2⟩

/-- C8: round-trip — for every valid topology (distinct state names),
the active configuration observable through `inState` after `enter()`
equals the one after `enter()`, `leave()`, `enter()` again. -/
theorem c8_roundtrip :
    ∀ root : STree, (allNames root).Nodup → ∀ n,
      inStateB root
          (machineEnter root (machineLeave root (machineEnter root freshMS))) n =
        inStateB root (machineEnter root freshMS) n := by
  intro root hN n
  rw [enter_then_leave hN]
  unfold inStateB
  cases h : lookupT n root with
  | none => rfl
  | some pn =>
      rcases pn with ⟨s, anc⟩
      refine activeUp_congr ?_ ?_ s anc
      · intro m
        rw [machineEnter_act
          (show ({ freshMS with
            out := entryLabels root ++ exitLabels root } : MState).flag = false
            from rfl)]
        rw [machineEnter_act (show freshMS.flag = false from rfl)]
      · rw [machineEnter_flag
          (show ({ freshMS with
            out := entryLabels root ++ exitLabels root } : MState).flag = false
            from rfl)]
        rw [machineEnter_flag (show freshMS.flag = false from rfl)]

/-- Witness for C8 at the concrete `ChildOnEntry` machine. -/
theorem c8_witness :
    inStateB mChild
        (machineEnter mChild (machineLeave mChild (machineEnter mChild freshMS)))
        "S1B" =
      inStateB mChild (machineEnter mChild freshMS) "S1B" :=
  c8_roundtrip mChild (by decide) "S1B"

/-! ### The microstep decomposed into phases (C7) -/

/-- The conflict-filtered transition set of the microstep for an
event. -/
def microFiltered (root : STree) (ms : MState) (e : String) : List Cand :=
  removeConflicts root ms (selectTransitions root ms e)

/-- The exit-callback labels of the microstep, in execution order. -/
def exitSeq (root : STree) (ms : MState) (e : String) : List String :=
  ((microFiltered root ms e).flatMap (fun c => candExits root ms c)).flatMap
    (fun pn => pn.1.onExit)

/-- The transition-action labels of the microstep, in list order. -/
def actionSeq (root : STree) (ms : MState) (e : String) : List String :=
  (microFiltered root ms e).flatMap (fun c =>
    match c.2.action with
    | some cb => [cb.label]
    | none => [])

/-- The events pushed by the microstep's actions, in order. -/
def microPushes (root : STree) (ms : MState) (e : String) : List String :=
  (microFiltered root ms e).flatMap (fun c =>
    match c.2.action with
    | some cb => cb.pushes
    | none => [])

/-- The machine state after the exit and action phases of the
microstep. -/
def microMid (root : STree) (ms : MState) (e : String) : MState :=
  doActions (exitPhase root ms (microFiltered root ms e))
    (microFiltered root ms e)

/-- The entry-callback labels of the microstep (the entry lists are
computed against the configuration left by the exit phase). -/
def entrySeq (root : STree) (ms : MState) (e : String) : List String :=
  ((microFiltered root ms e).flatMap (fun c =>
    match c.2.target with
    | none => []
    | some tn =>
        match lookupT tn root with
        | some tgt => listEntryStates root (microMid root ms e) tgt
        | none => [])).flatMap (fun pn => pn.1.onEntry)

theorem doAction_out (ms : MState) (c : Cand) :
    (doAction ms c).out = ms.out ++
      (match c.2.action with
       | some cb => [cb.label]
       | none => []) := by
  unfold doAction
  cases c.2.action <;> simp

theorem doAction_queue (ms : MState) (c : Cand) :
    (doAction ms c).queue = ms.queue ++
      (match c.2.action with
       | some cb => cb.pushes
       | none => []) := by
  unfold doAction
  cases c.2.action <;> simp

theorem doAction_act (ms : MState) (c : Cand) :
    (doAction ms c).act = ms.act := by
  unfold doAction
  cases c.2.action <;> simp

theorem doAction_flag (ms : MState) (c : Cand) :
    (doAction ms c).flag = ms.flag := by
  unfold doAction
  cases c.2.action <;> simp

theorem doActions_out (l : List Cand) (ms : MState) :
    (doActions ms l).out = ms.out ++ l.flatMap (fun c =>
      match c.2.action with
      | some cb => [cb.label]
      | none => []) := by
  induction l generalizing ms with
  | nil => simp [doActions]
  | cons c l ih =>
      show (doActions (doAction ms c) l).out = _
      rw [ih, doAction_out]
      simp [List.append_assoc]

theorem doActions_queue (l : List Cand) (ms : MState) :
    (doActions ms l).queue = ms.queue ++ l.flatMap (fun c =>
      match c.2.action with
      | some cb => cb.pushes
      | none => []) := by
  induction l generalizing ms with
  | nil => simp [doActions]
  | cons c l ih =>
      show (doActions (doAction ms c) l).queue = _
      rw [ih, doAction_queue]
      simp [List.append_assoc]

/-- C7 part 1: the observable output of one microstep is the exits,
then the actions, then the entries — each phase's callbacks run as a
contiguous block in that order. -/
theorem processTransitions_out (root : STree) (ms : MState) (e : String) :
    (processTransitions root ms e).out =
      ms.out ++ exitSeq root ms e ++ actionSeq root ms e ++ entrySeq root ms e := by
  unfold processTransitions exitSeq actionSeq entrySeq
  rw [show removeConflicts root ms (selectTransitions root ms e) =
    microFiltered root ms e from rfl]
  unfold enterPhase
  rw [foldl_stateEnter_out]
  rw [show doActions (exitPhase root ms (microFiltered root ms e))
      (microFiltered root ms e) = microMid root ms e from rfl]
  unfold microMid
  rw [doActions_out]
  unfold exitPhase
  rw [foldl_stateLeave_out]

theorem processTransitions_queue (root : STree) (ms : MState) (e : String) :
    (processTransitions root ms e).queue = ms.queue ++ microPushes root ms e := by
  unfold processTransitions microPushes
  rw [show removeConflicts root ms (selectTransitions root ms e) =
    microFiltered root ms e from rfl]
  unfold enterPhase
  rw [foldl_stateEnter_queue]
  rw [doActions_queue]
  unfold exitPhase
  rw [foldl_stateLeave_queue]

/-- C7 part 2: the event queue is FIFO — one step of the drain loop
processes exactly the front event, and the events its callbacks pushed
are appended behind the rest of the queue (the pushed events' own
microsteps run later, never nested inside the current one). -/
theorem processEvents_step (root : STree) (fuel : Nat) (ms : MState)
    (e : String) (rest : List String) (h : ms.queue = e :: rest) :
    processEvents root (fuel + 1) ms =
      processEvents root fuel
        { processTransitions root ms e with
          queue := rest ++ microPushes root ms e } := by
  rw [processEvents, h]
  have hq : (processTransitions root ms e).queue.drop 1 =
      rest ++ microPushes root ms e := by
    rw [processTransitions_queue, h]
    rfl
  show processEvents root fuel
      { processTransitions root ms e with
        queue := (processTransitions root ms e).queue.drop 1 } =
    processEvents root fuel
      { processTransitions root ms e with
        queue := rest ++ microPushes root ms e }
  rw [hq]

/-- C7 part 3: a `pushEvent` issued while an event-processing frame is
open (`mInToplevelProcess` set, i.e. from inside a callback) only
enqueues the event. -/
theorem pushEvent_reentrant (root : STree) (fuel : Nat) (ms : MState)
    (e : String) (h : ms.inTop = true) :
    pushEventM root fuel ms e = { ms with queue := ms.queue ++ [e] } := by
  unfold pushEventM
  rw [if_pos (by simp [h])]

/-- C7: run-to-completion ordering.  Within one microstep all exits
precede all actions, which precede all entries
(`processTransitions_out`); the queue is processed strictly FIFO, with
events pushed during a microstep appended behind the pending ones
(`processEvents_step`); and a re-entrant `pushEvent` from inside a
callback only enqueues (`pushEvent_reentrant`). -/
theorem c7_run_to_completion :
    (∀ (root : STree) (ms : MState) (e : String),
      (processTransitions root ms e).out =
        ms.out ++ exitSeq root ms e ++ actionSeq root ms e ++
          entrySeq root ms e) ∧
    (∀ (root : STree) (fuel : Nat) (ms : MState) (e : String)
      (rest : List String), ms.queue = e :: rest →
      processEvents root (fuel + 1) ms =
        processEvents root fuel
          { processTransitions root ms e with
            queue := rest ++ microPushes root ms e }) ∧
    (∀ (root : STree) (fuel : Nat) (ms : MState) (e : String),
      ms.inTop = true →
      pushEventM root fuel ms e = { ms with queue := ms.queue ++ [e] }) :=
  ⟨processTransitions_out, processEvents_step, pushEvent_reentrant⟩

/-- Witness for C7 at concrete machine states. -/
theorem c7_witness :
    processEvents mTwo 1 { freshMS with queue := ["event", "x"] } =
        processEvents mTwo 0
          { processTransitions mTwo { freshMS with queue := ["event", "x"] }
              "event" with
            queue := ["x"] ++
              microPushes mTwo { freshMS with queue := ["event", "x"] } "event" } ∧
      pushEventM mTwo 3 { freshMS with inTop := true } "event" =
        { ({ freshMS with inTop := true } : MState) with
          queue := freshMS.queue ++ ["event"] } :=
  ⟨c7_run_to_completion.2.1 mTwo 0 _ "event" ["x"] rfl,
    c7_run_to_completion.2.2 mTwo 3 _ "event" rfl⟩

/-! ### Inert events and unknown state names (C9) -/

theorem flatMap_eq_nil_of {α β : Type _} {l : List α} {f : α → List β}
    (h : ∀ a ∈ l, f a = []) : l.flatMap f = [] := by
  induction l with
  | nil => rfl
  | cons a l ih =>
      rw [List.flatMap_cons, h a (List.mem_cons_self _ _),
        ih (fun b hb => h b (List.mem_cons_of_mem _ hb))]
      rfl

/-- Every state collected by the active-atomic scan is an active atomic
state of the machine. -/
theorem collectAtomics_mem {root : STree} {ms : MState} :
    ∀ (fuel : Nat) (l : List PNode), (∀ pn ∈ l, pn ∈ allPN root) →
      ∀ x ∈ collectAtomics ms fuel l,
        x ∈ allPN root ∧ x.1.isAtomic = true ∧ activeUp ms x.1 x.2 = true := by
  intro fuel
  induction fuel with
  | zero =>
      intro l h x hx
      exact absurd hx (List.not_mem_nil x)
  | succ fuel ih =>
      intro l h x hx
      cases l with
      | nil => exact absurd hx (List.not_mem_nil x)
      | cons pn rest =>
          rw [collectAtomics] at hx
          have hnext : ∀ q ∈ pnChildren pn ++ rest, q ∈ allPN root := by
            intro q hq
            rcases List.mem_append.mp hq with hq | hq
            · exact mem_allPNT_child (h pn (List.mem_cons_self _ _)) hq
            · exact h q (List.mem_cons_of_mem _ hq)
          split at hx
          next hcond =>
            rcases List.mem_cons.mp hx with rfl | hx
            · refine ⟨h x (List.mem_cons_self _ _), ?_, ?_⟩
              · exact (Bool.and_eq_true_iff.mp hcond).1
              · exact (Bool.and_eq_true_iff.mp hcond).2
            · exact ih _ hnext x hx
          next => exact ih _ hnext x hx

theorem mem_upChain_allPN {root : STree} {pn q : PNode}
    (h : pn ∈ allPN root) (hq : q ∈ upChain pn.1 pn.2) : q ∈ allPN root := by
  rw [upChain_eq] at hq
  rcases List.mem_cons.mp hq with rfl | hq
  · exact h
  · exact mem_allPN_anc h q hq

theorem matchHere_nil {root : STree} {ms : MState} {e : String} {s : STree}
    (h : ∀ t ∈ s.transitions, t.event ≠ e) :
    matchHere root ms e s = [] := by
  unfold matchHere
  refine List.filter_eq_nil_iff.mpr ?_
  intro t ht
  simp [h t ht]

theorem walkUp_nil {root : STree} {ms : MState} {e : String} :
    ∀ chain : List PNode, (∀ q ∈ chain, matchHere root ms e q.1 = []) →
      walkUp root ms e chain = [] := by
  intro chain
  induction chain with
  | nil => intro; rfl
  | cons q qs ih =>
      intro h
      rw [walkUp]
      rw [h q (List.mem_cons_self _ _)]
      exact ih (fun x hx => h x (List.mem_cons_of_mem _ hx))

/-- When no active state has a transition for the event, the selector
returns no candidates (the upward walks start at active atomic states,
whose self-or-ancestor chains consist of active states by hypothesis). -/
theorem selectTransitions_nil {root : STree} {ms : MState} {e : String}
    (hAnc : ∀ pn ∈ allPN root, pn.1.isAtomic = true →
      activeUp ms pn.1 pn.2 = true →
      ∀ q ∈ upChain pn.1 pn.2, activeUp ms q.1 q.2 = true)
    (hMatch : ∀ q ∈ allPN root, activeUp ms q.1 q.2 = true →
      ∀ t ∈ q.1.transitions, t.event ≠ e) :
    selectTransitions root ms e = [] := by
  unfold selectTransitions
  apply flatMap_eq_nil_of
  intro pn hpn
  have hprops := collectAtomics_mem root.size [(root, [])]
    (by
      intro q hq
      rcases List.mem_singleton.mp hq with rfl
      exact mem_allPNT_self _ _)
    pn hpn
  apply walkUp_nil
  intro q hq
  exact matchHere_nil
    (hMatch q (mem_upChain_allPN hprops.1 hq)
      (hAnc pn hprops.1 hprops.2.1 hprops.2.2 q hq))

/-- A microstep with no selected transition leaves the machine state
untouched and runs no callback. -/
theorem processTransitions_nil {root : STree} {ms : MState} {e : String}
    (h : selectTransitions root ms e = []) :
    processTransitions root ms e = ms := by
  unfold processTransitions
  rw [h]
  rfl

theorem processEvents_nilQueue {root : STree} :
    ∀ (fuel : Nat) (ms : MState), ms.queue = [] →
      processEvents root fuel ms = ms := by
  intro fuel ms h
  cases fuel with
  | zero => rfl
  | succ fuel => rw [processEvents, h]

/-- Draining a one-event queue whose event selects nothing just pops
the event. -/
theorem pushEvent_inert_core {root : STree} {ms2 : MState} {e : String}
    {fuel : Nat} (hsel : selectTransitions root ms2 e = [])
    (hq : ms2.queue = [e]) :
    processEvents root (fuel + 1) ms2 = { ms2 with queue := [] } := by
  rw [processEvents, hq]
  show processEvents root fuel
      { processTransitions root ms2 e with
        queue := (processTransitions root ms2 e).queue.drop 1 } =
    { ms2 with queue := [] }
  rw [processTransitions_nil hsel]
  have hdrop : ms2.queue.drop 1 = [] := by
    rw [hq]
    rfl
  rw [hdrop]
  exact processEvents_nilQueue fuel _ rfl

/-- C9: runtime queries and event delivery never fail.  Pushing an
event that matches no transition of any active state (with the ancestor
chains of active atomic states active, as in every reachable
configuration) leaves the machine state — configuration, queue and
callback log — exactly unchanged; and `inState` returns false for any
name that is not the name of a state of the machine. -/
theorem c9_inert_events_and_unknown_names :
    (∀ (root : STree) (ms : MState) (e : String) (fuel : Nat),
      ms.queue = [] → ms.inTop = false →
      (∀ pn ∈ allPN root, pn.1.isAtomic = true →
        activeUp ms pn.1 pn.2 = true →
        ∀ q ∈ upChain pn.1 pn.2, activeUp ms q.1 q.2 = true) →
      (∀ q ∈ allPN root, activeUp ms q.1 q.2 = true →
        ∀ t ∈ q.1.transitions, t.event ≠ e) →
      pushEventM root (fuel + 1) ms e = ms) ∧
    (∀ (root : STree) (ms : MState) (n : String),
      (∀ q ∈ allPN root, q.1.name ≠ n) → inStateB root ms n = false) := by
  constructor
  · intro root ms e fuel hq ht hAnc hMatch
    unfold pushEventM
    rw [if_neg (by simp [ht])]
    have hcong : ∀ (s : STree) (anc : List STree),
        activeUp { { ms with queue := ms.queue ++ [e] } with inTop := true } s anc =
          activeUp ms s anc :=
      activeUp_congr (fun _ => rfl) rfl
    have hsel : selectTransitions root
        { { ms with queue := ms.queue ++ [e] } with inTop := true } e = [] := by
      refine selectTransitions_nil ?_ ?_
      · intro pn hpn ha hb q hq2
        rw [hcong]
        exact hAnc pn hpn ha (by rwa [hcong] at hb) q hq2
      · intro q hq2 hact
        exact hMatch q hq2 (by rwa [hcong] at hact)
    show ({ processEvents root (fuel + 1)
        { { ms with queue := ms.queue ++ [e] } with inTop := true } with
        inTop := false } : MState) = ms
    rw [pushEvent_inert_core hsel (by simp [hq])]
    refine MState.ext rfl ht.symm rfl hq.symm rfl
  · intro root ms n h
    unfold inStateB
    cases hl : lookupT n root with
    | none => rfl
    | some pn =>
        exact absurd (lookupT_name hl) (h pn (lookupT_mem_allPN hl))

/-- Witness for C9 at the concrete `ChildOnEntry` machine after
`enter()`, with an event name and a state name that occur nowhere. -/
theorem c9_witness :
    pushEventM mChild 1 (machineEnter mChild freshMS) "nomatch" =
        machineEnter mChild freshMS ∧
      inStateB mChild (machineEnter mChild freshMS) "ghost" = false :=
  ⟨c9_inert_events_and_unknown_names.1 mChild (machineEnter mChild freshMS)
      "nomatch" 0 (by decide) (by decide) (by decide) (by decide),
    c9_inert_events_and_unknown_names.2 mChild (machineEnter mChild freshMS)
      "ghost" (by decide)⟩

/-! ### Selection per atomic state (C1) and the conflict resolver
(C2, C3, C4) -/

/-- The upward walk of one atomic state, characterised by the first
self-or-ancestor with a usable transition: it contributes every
transition matching the event whose condition holds, and the walk goes
no further. -/
theorem walkUp_eq_find (root : STree) (ms : MState) (e : String) :
    ∀ chain : List PNode,
      walkUp root ms e chain =
        match chain.find? (fun q => !(matchHere root ms e q.1).isEmpty) with
        | some q => (matchHere root ms e q.1).map (fun t => (q, t))
        | none => [] := by
  intro chain
  induction chain with
  | nil => rfl
  | cons q qs ih =>
      rw [walkUp]
      simp only [List.find?_cons]
      cases hm : (matchHere root ms e q.1).isEmpty with
      | true => simp [hm, ih]
      | false => simp [hm]

/-- C1 counterexample: a state with two targetless transitions on the
same event (the shape used by the `TargetlessTransitions` test).  The
selector returns two candidates, both from the single active atomic
state `S1`, and both actions run — refuting that exactly one transition
(the first whose guard holds) is selected per active atomic state and
that each region contributes at most one transition. -/
theorem c1_counterexample :
    (selectTransitions mTwo (machineEnter mTwo freshMS) "event").length = 2 ∧
    (∀ c ∈ selectTransitions mTwo (machineEnter mTwo freshMS) "event",
      c.1.1.name = "S1") ∧
    (pushEventM mTwo 1 (machineEnter mTwo freshMS) "event").out =
      ["first", "second"] := by
  decide

/-- C1 amended: for every machine and event, selection proceeds per
active atomic state (document order); walking from the atomic state up
toward the root, the innermost self-or-ancestor that has at least one
transition for the event whose guard holds contributes all such
transitions (in declaration order) — not just the first — and the
upward walk stops there. -/
theorem c1_amended_innermost_matches :
    ∀ (root : STree) (ms : MState) (e : String),
      selectTransitions root ms e =
        (collectAtomics ms root.size [(root, [])]).flatMap (fun pn =>
          match (upChain pn.1 pn.2).find?
              (fun q => !(matchHere root ms e q.1).isEmpty) with
          | some q => (matchHere root ms e q.1).map (fun t => (q, t))
          | none => []) := by
  intro root ms e
  unfold selectTransitions
  simp only [walkUp_eq_find root ms e]

/-- C2: two transitions confined to sibling regions of a parallel state
(`SA1 → SA2` and `SB1 → SB2` on the same event) have disjoint exit sets
(`{SA1}` and `{SB1}`), yet the conflict resolver discards the second:
only `SA`'s transition fires, `SB1` stays active and `SB2` is never
entered.  The source's conflict test `!lIntersect.empty()` consults its
scratch vector, which is never cleared, instead of the computed
intersection. -/
theorem c2_disjoint_exit_sets_preempted :
    ((selectTransitions mDisj (machineEnter mDisj freshMS) "e").map
        (fun c => pnNames (candExits mDisj (machineEnter mDisj freshMS) c))) =
      [["SA1"], ["SB1"]] ∧
    (microFiltered mDisj (machineEnter mDisj freshMS) "e").length = 1 ∧
    inStateB mDisj (pushEventM mDisj 1 (machineEnter mDisj freshMS) "e")
        "SA2" = true ∧
    inStateB mDisj (pushEventM mDisj 1 (machineEnter mDisj freshMS) "e")
        "SB2" = false ∧
    inStateB mDisj (pushEventM mDisj 1 (machineEnter mDisj freshMS) "e")
        "SB1" = true := by
  decide

/-- C3: in the `ParallelConflictingTransition` topology, pushing the
event fires only region `SA`'s transition to `S2` (document order
wins): the full callback trace matches the test, `S2` is active, `S3`
is not, and `SB`'s transition action never runs. -/
theorem c3_parallel_conflict_resolution :
    (pushEventM mConf 1 (machineEnter mConf freshMS) "event").out =
      ["S1 entry", "SA entry", "SB entry", "SB exit", "SA exit", "S1 exit",
        "SA action", "S2 entry"] ∧
    inStateB mConf (pushEventM mConf 1 (machineEnter mConf freshMS) "event")
        "S2" = true ∧
    inStateB mConf (pushEventM mConf 1 (machineEnter mConf freshMS) "event")
        "S3" = false ∧
    "SB action" ∉
      (pushEventM mConf 1 (machineEnter mConf freshMS) "event").out := by
  decide

/-- C4 failing input: a transition from one region of a parallel state
into the sibling region (`SA1 → SB2`).  After the event, the compound
state `SA` (children `SA1`, `SA2`) is still reported active, but
neither of its children is active — the configuration invariant
"an active compound state has exactly one active child" is violated in
a state reachable by `enter()` then one `pushEvent()`. -/
theorem c4_cross_region_breaks_invariant :
    ((lookupT "SA" mCross).map (fun pn => pn.1.children.toList.map STree.name)) =
      some ["SA1", "SA2"] ∧
    inStateB mCross (pushEventM mCross 1 (machineEnter mCross freshMS) "e")
        "SA" = true ∧
    inStateB mCross (pushEventM mCross 1 (machineEnter mCross freshMS) "e")
        "SA1" = false ∧
    inStateB mCross (pushEventM mCross 1 (machineEnter mCross freshMS) "e")
        "SA2" = false := by
  decide

/-! ### The throw site of the runtime (C10): an Except-valued model

`StateImpl::enter` (README lines 1122-1139) is the only runtime
function with a throw: `NoInitialState` when the state is non-parallel
with children but no initial child.  `StateImpl::build` (README lines
1080-1083) performs the same test on every state during construction.
The definitions below propagate the throw as an `Except` error through
the runtime entry points that call `StateImpl::enter` (machine `enter`
and the entry phase of a microstep); `leave` and `inState` contain no
throw site. -/

/-- The guard of the `NoInitialState` throw in `StateImpl::enter`
(README lines 1123-1129) — identical to the condition rejected by
`StateImpl::build` (README line 1081): non-parallel, no initial child,
but children present. -/
def enterThrows (s : STree) : Bool :=
  !s.isParallel && (initialChild s).isNone && !s.isAtomic

/-- `StateImpl::enter` with its throw: errors exactly under
`enterThrows`, otherwise behaves as `stateEnter`. -/
def stateEnterE (ms : MState) (pn : PNode) : Except String MState :=
  if enterThrows pn.1 then .error ("NoInitialState " ++ pn.1.name)
  else .ok (stateEnter ms pn)

/-- The worklist loop of `StateMachine::enter` with the throw
propagated. -/
def enterLoopE : Nat → MState → List PNode → Except String MState
  | 0, ms, _ => .ok ms
  | _ + 1, ms, [] => .ok ms
  | fuel + 1, ms, pn :: rest =>
      match stateEnterE ms pn with
      | .error err => .error err
      | .ok ms1 =>
          let next :=
            if pn.1.isParallel then pnChildren pn ++ rest
            else
              match initialChild pn.1 with
              | some ini => (ini, pn.1 :: pn.2) :: rest
              | none => rest
          enterLoopE fuel ms1 next

/-- `StateMachine::enter` with the throw propagated. -/
def machineEnterE (root : STree) (ms : MState) : Except String MState :=
  if ms.flag then .ok ms
  else enterLoopE root.size { ms with flag := true } [(root, [])]

/-- The enter loop of `StateMachine::enterStates` (README lines
1622-1625) with the throw propagated. -/
def enterFoldE : MState → List PNode → Except String MState
  | ms, [] => .ok ms
  | ms, pn :: rest =>
      match stateEnterE ms pn with
      | .error err => .error err
      | .ok ms1 => enterFoldE ms1 rest

/-- `StateMachine::enterStates` with the throw propagated. -/
def enterPhaseE (root : STree) (ms : MState) (filtered : List Cand) :
    Except String MState :=
  let toEnter := filtered.flatMap (fun c =>
    match c.2.target with
    | none => []
    | some tn =>
        match lookupT tn root with
        | some tgt => listEntryStates root ms tgt
        | none => [])
  enterFoldE ms toEnter

/-- `StateMachine::processTransitions` with the throw propagated (only
its entry phase contains a throw site). -/
def processTransitionsE (root : STree) (ms : MState) (e : String) :
    Except String MState :=
  let filtered := removeConflicts root ms (selectTransitions root ms e)
  let ms1 := exitPhase root ms filtered
  let ms2 := doActions ms1 filtered
  enterPhaseE root ms2 filtered

/-- The drain loop of `StateMachine::processEvents` with the throw
propagated. -/
def processEventsE (root : STree) : Nat → MState → Except String MState
  | 0, ms => .ok ms
  | fuel + 1, ms =>
      match ms.queue with
      | [] => .ok ms
      | e :: _ =>
          match processTransitionsE root ms e with
          | .error err => .error err
          | .ok ms1 =>
              processEventsE root fuel { ms1 with queue := ms1.queue.drop 1 }

/-- `StateMachine::pushEvent` with the throw propagated. -/
def pushEventE (root : STree) (fuel : Nat) (ms : MState) (e : String) :
    Except String MState :=
  let ms1 := { ms with queue := ms.queue ++ [e] }
  if ms1.inTop then .ok ms1
  else
    match processEventsE root fuel { ms1 with inTop := true } with
    | .error err => .error err
    | .ok ms2 => .ok { ms2 with inTop := false }

/-- The `NoInitialState` check of `StateImpl::build` (README lines
1080-1083), applied — as the constructor does — to every state of the
topology: construction succeeds only when no state triggers it. -/
def buildInitialOk (root : STree) : Bool :=
  (allPN root).all (fun q => !enterThrows q.1)

theorem buildInitialOk_spec {root : STree} (h : buildInitialOk root = true) :
    ∀ q ∈ allPN root, enterThrows q.1 = false := by
  intro q hq
  have h2 := List.all_eq_true.mp h q hq
  simpa using h2

theorem enterFoldE_ok {l : List PNode} :
    ∀ ms : MState, (∀ pn ∈ l, enterThrows pn.1 = false) →
      enterFoldE ms l = .ok (l.foldl stateEnter ms) := by
  induction l with
  | nil => intro ms _; rfl
  | cons pn rest ih =>
      intro ms H
      have hpn : enterThrows pn.1 = false := H pn (List.mem_cons_self _ _)
      rw [enterFoldE, List.foldl_cons, stateEnterE, if_neg (by simp [hpn])]
      exact ih _ (fun q hq => H q (List.mem_cons_of_mem _ hq))

/-- When every state the descent will visit passes the check, the
Except-valued enter loop succeeds and agrees with the total one. -/
theorem enterLoopE_eq (fuel : Nat) :
    ∀ (ms : MState) (ws : List PNode),
      (∀ q ∈ ws.flatMap (fun pn => descentT pn.1 pn.2),
        enterThrows q.1 = false) →
      enterLoopE fuel ms ws = .ok (enterLoop fuel ms ws) := by
  induction fuel with
  | zero => intro ms ws _; rfl
  | succ fuel ih =>
      intro ms ws H
      cases ws with
      | nil => rfl
      | cons pn rest =>
          have hpn : enterThrows pn.1 = false := by
            refine H pn (List.mem_flatMap.mpr ⟨pn, List.mem_cons_self _ _, ?_⟩)
            exact mem_descentT_self pn.1 pn.2
          rw [enterLoopE, enterLoop, stateEnterE, if_neg (by simp [hpn])]
          cases hp : pn.1.isParallel with
          | true =>
              have hnext : ∀ q ∈ (pnChildren pn ++ rest).flatMap
                  (fun pn => descentT pn.1 pn.2), enterThrows q.1 = false := by
                intro q hq
                rcases List.mem_flatMap.mp hq with ⟨a, ha, hqa⟩
                rcases List.mem_append.mp ha with ha | ha
                · refine H q
                    (List.mem_flatMap.mpr ⟨pn, List.mem_cons_self _ _, ?_⟩)
                  rw [descentT_eq_par hp]
                  exact List.mem_cons_of_mem _
                    (List.mem_flatMap.mpr ⟨a, ha, hqa⟩)
                · exact H q
                    (List.mem_flatMap.mpr ⟨a, List.mem_cons_of_mem _ ha, hqa⟩)
              exact ih (stateEnter ms pn) (pnChildren pn ++ rest) hnext
          | false =>
              cases hi : initialChild pn.1 with
              | some ini =>
                  have hnext : ∀ q ∈
                      (((ini, pn.1 :: pn.2) : PNode) :: rest).flatMap
                        (fun pn => descentT pn.1 pn.2),
                      enterThrows q.1 = false := by
                    intro q hq
                    rcases List.mem_flatMap.mp hq with ⟨a, ha, hqa⟩
                    rcases List.mem_cons.mp ha with rfl | ha
                    · refine H q
                        (List.mem_flatMap.mpr ⟨pn, List.mem_cons_self _ _, ?_⟩)
                      rw [descentT_eq_init hp hi]
                      exact List.mem_cons_of_mem _ hqa
                    · exact H q
                        (List.mem_flatMap.mpr ⟨a, List.mem_cons_of_mem _ ha, hqa⟩)
                  exact ih _ _ hnext
              | none =>
                  have hnext : ∀ q ∈ rest.flatMap
                      (fun pn => descentT pn.1 pn.2),
                      enterThrows q.1 = false := by
                    intro q hq
                    rcases List.mem_flatMap.mp hq with ⟨a, ha, hqa⟩
                    exact H q
                      (List.mem_flatMap.mpr ⟨a, List.mem_cons_of_mem _ ha, hqa⟩)
                  exact ih _ _ hnext

theorem machineEnterE_ok {root : STree} (h : buildInitialOk root = true)
    (ms : MState) : machineEnterE root ms = .ok (machineEnter root ms) := by
  unfold machineEnterE machineEnter
  cases hf : ms.flag with
  | true => rw [if_pos rfl, if_pos rfl]
  | false =>
      rw [if_neg Bool.false_ne_true, if_neg Bool.false_ne_true]
      refine enterLoopE_eq root.size _ _ ?_
      intro q hq
      rcases List.mem_flatMap.mp hq with ⟨a, ha, hqa⟩
      rw [List.mem_singleton] at ha
      subst ha
      exact buildInitialOk_spec h q (mem_descentT_sub hqa)

/-- Every state the completion pass collects is a state of the
machine. -/
theorem entryCompletion_mem {root : STree} :
    ∀ (fuel : Nat) (acc fifo : List PNode),
      (∀ x ∈ acc, x ∈ allPN root) → (∀ x ∈ fifo, x ∈ allPN root) →
      ∀ x ∈ entryCompletion fuel acc fifo, x ∈ allPN root := by
  intro fuel
  induction fuel with
  | zero => intro acc fifo ha _ x hx; exact ha x hx
  | succ fuel ih =>
      intro acc fifo ha hf x hx
      cases fifo with
      | nil => exact ha x hx
      | cons pn rest =>
          have hpn : pn ∈ allPN root := hf pn (List.mem_cons_self _ _)
          have hrest : ∀ y ∈ rest, y ∈ allPN root :=
            fun y hy => hf y (List.mem_cons_of_mem _ hy)
          rw [entryCompletion] at hx
          cases hp : pn.1.isParallel with
          | true =>
              rw [hp] at hx
              replace hx : x ∈ entryCompletion fuel (acc ++ pnChildren pn)
                  (rest ++ pnChildren pn) := hx
              refine ih (acc ++ pnChildren pn) (rest ++ pnChildren pn)
                ?_ ?_ x hx
              · intro y hy
                rcases List.mem_append.mp hy with hy | hy
                · exact ha y hy
                · exact mem_allPNT_child hpn hy
              · intro y hy
                rcases List.mem_append.mp hy with hy | hy
                · exact hrest y hy
                · exact mem_allPNT_child hpn hy
          | false =>
              rw [hp] at hx
              cases hi : initialChild pn.1 with
              | some ini =>
                  rw [hi] at hx
                  replace hx : x ∈ entryCompletion fuel
                      (acc ++ [(ini, pn.1 :: pn.2)])
                      (rest ++ [(ini, pn.1 :: pn.2)]) := hx
                  have hini : ((ini, pn.1 :: pn.2) : PNode) ∈ allPN root :=
                    mem_allPNT_child hpn
                      (mem_pnChildren.mpr ⟨ini, initialChild_mem hi, rfl⟩)
                  refine ih _ _ ?_ ?_ x hx
                  · intro y hy
                    rcases List.mem_append.mp hy with hy | hy
                    · exact ha y hy
                    · rw [List.mem_singleton] at hy; subst hy; exact hini
                  · intro y hy
                    rcases List.mem_append.mp hy with hy | hy
                    · exact hrest y hy
                    · rw [List.mem_singleton] at hy; subst hy; exact hini
              | none =>
                  rw [hi] at hx
                  replace hx : x ∈ entryCompletion fuel acc rest := hx
                  exact ih acc rest ha hrest x hx

/-- The child insertion pass only rearranges its inputs: any property
of every input holds of every output. -/
theorem childPass_all {P : PNode → Prop} (a0 : Option String) :
    ∀ (cs rb : List PNode) (cur : PNode) (after : List PNode),
      (∀ q ∈ rb, P q) → P cur → (∀ q ∈ after, P q) → (∀ q ∈ cs, P q) →
      (∀ q ∈ (childPass a0 rb cur after cs).1, P q) ∧
      (∀ q ∈ (childPass a0 rb cur after cs).2, P q) := by
  intro cs
  induction cs with
  | nil =>
      intro rb cur after hrb hcur hafter _
      constructor
      · intro q hq
        replace hq : q ∈ cur :: rb := hq
        rcases List.mem_cons.mp hq with rfl | hq
        · exact hcur
        · exact hrb q hq
      · exact hafter
  | cons c cs ih =>
      intro rb cur after hrb hcur hafter hcs
      have hc : P c := hcs c (List.mem_cons_self _ _)
      have hcs2 : ∀ q ∈ cs, P q := fun q hq => hcs q (List.mem_cons_of_mem _ hq)
      have hcons : ∀ q ∈ cur :: rb, P q := by
        intro q hq
        rcases List.mem_cons.mp hq with rfl | hq
        · exact hcur
        · exact hrb q hq
      cases after with
      | nil =>
          rw [childPass.eq_2]
          by_cases ha : a0 = some c.1.name
          · rw [if_pos ha]
            exact ih rb cur [] hrb hcur hafter hcs2
          · rw [if_neg ha]
            exact ih (cur :: rb) c [] hcons hc hafter hcs2
      | cons a rest =>
          have hrest2 : ∀ q ∈ rest, P q :=
            fun q hq => hafter q (List.mem_cons_of_mem _ hq)
          rw [childPass.eq_3]
          by_cases ha : a0 = some c.1.name
          · rw [if_pos ha]
            exact ih (cur :: rb) a rest hcons
              (hafter a (List.mem_cons_self _ _)) hrest2 hcs2
          · rw [if_neg ha]
            exact ih (cur :: rb) c (a :: rest) hcons hc hafter hcs2

/-- Every state produced by the parallel scan is a state of the
machine. -/
theorem parallelPass_mem {root : STree} :
    ∀ (fuel : Nat) (acc l : List PNode),
      (∀ x ∈ acc, x ∈ allPN root) → (∀ x ∈ l, x ∈ allPN root) →
      ∀ x ∈ parallelPass fuel acc l, x ∈ allPN root := by
  intro fuel
  induction fuel with
  | zero =>
      intro acc l ha _ x hx
      rw [parallelPass] at hx
      exact ha x (List.mem_reverse.mp hx)
  | succ fuel ih =>
      intro acc l ha hl x hx
      cases l with
      | nil =>
          rw [parallelPass] at hx
          exact ha x (List.mem_reverse.mp hx)
      | cons p rest =>
          have hp0 : p ∈ allPN root := hl p (List.mem_cons_self _ _)
          have hrest : ∀ y ∈ rest, y ∈ allPN root :=
            fun y hy => hl y (List.mem_cons_of_mem _ hy)
          rw [parallelPass] at hx
          cases hp : p.1.isParallel with
          | true =>
              rw [hp] at hx
              replace hx : x ∈ parallelPass fuel
                  (childPass (rest.head?.map (fun v => v.1.name))
                    acc p rest (pnChildren p)).1
                  (childPass (rest.head?.map (fun v => v.1.name))
                    acc p rest (pnChildren p)).2 := hx
              have hall := childPass_all (P := fun y => y ∈ allPN root)
                (rest.head?.map (fun v => v.1.name)) (pnChildren p) acc p rest
                ha hp0 hrest (fun y hy => mem_allPNT_child hp0 hy)
              exact ih _ _ hall.1 hall.2 x hx
          | false =>
              rw [hp] at hx
              replace hx : x ∈ parallelPass fuel (p :: acc) rest := hx
              refine ih (p :: acc) rest ?_ hrest x hx
              intro y hy
              rcases List.mem_cons.mp hy with rfl | hy
              · exact hp0
              · exact ha y hy

/-- The inactive ancestors of a state of the machine are states of the
machine. -/
theorem inactiveAncPrefix_mem {root : STree} {pn : PNode}
    (h : pn ∈ allPN root) (ms : MState) :
    ∀ q ∈ inactiveAncPrefix ms pn.2, q ∈ allPN root := by
  intro q hq
  rw [inactiveAncPrefix, List.mem_reverse] at hq
  exact mem_allPN_anc h q ((List.takeWhile_sublist _).subset hq)

/-- Every state `listEntryStates` schedules for entry is a state of
the machine. -/
theorem listEntryStates_mem {root : STree} {tgt : PNode}
    (h : tgt ∈ allPN root) (ms : MState) :
    ∀ q ∈ listEntryStates root ms tgt, q ∈ allPN root := by
  intro q hq
  have hcomp : ∀ x ∈ entryCompletion root.size [tgt] [tgt], x ∈ allPN root := by
    refine entryCompletion_mem root.size [tgt] [tgt] ?_ ?_
    · intro x hx; rw [List.mem_singleton] at hx; subst hx; exact h
    · intro x hx; rw [List.mem_singleton] at hx; subst hx; exact h
  have hfull : ∀ x ∈ inactiveAncPrefix ms tgt.2 ++
      entryCompletion root.size [tgt] [tgt], x ∈ allPN root := by
    intro x hx
    rcases List.mem_append.mp hx with hx | hx
    · exact inactiveAncPrefix_mem h ms x hx
    · exact hcomp x hx
  exact parallelPass_mem _ [] _
    (fun x hx => absurd hx (List.not_mem_nil x)) hfull q hq

theorem enterPhaseE_ok {root : STree} (h : buildInitialOk root = true)
    (ms : MState) (filtered : List Cand) :
    enterPhaseE root ms filtered = .ok (enterPhase root ms filtered) := by
  have H : ∀ pn ∈ filtered.flatMap (fun c =>
      match c.2.target with
      | none => []
      | some tn =>
          match lookupT tn root with
          | some tgt => listEntryStates root ms tgt
          | none => []), enterThrows pn.1 = false := by
    intro pn hpn
    rcases List.mem_flatMap.mp hpn with ⟨c, hc, hpn2⟩
    split at hpn2
    · exact absurd hpn2 (List.not_mem_nil pn)
    · split at hpn2
      · rename_i tn htn tgt hl
        exact buildInitialOk_spec h pn
          (listEntryStates_mem (lookupT_mem_allPN hl) ms pn hpn2)
      · exact absurd hpn2 (List.not_mem_nil pn)
  exact enterFoldE_ok ms H

theorem processTransitionsE_ok {root : STree} (h : buildInitialOk root = true)
    (ms : MState) (e : String) :
    processTransitionsE root ms e = .ok (processTransitions root ms e) := by
  unfold processTransitionsE processTransitions
  exact enterPhaseE_ok h _ _

theorem processEventsE_ok {root : STree} (h : buildInitialOk root = true) :
    ∀ (fuel : Nat) (ms : MState),
      processEventsE root fuel ms = .ok (processEvents root fuel ms) := by
  intro fuel
  induction fuel with
  | zero => intro ms; rfl
  | succ fuel ih =>
      intro ms
      rw [processEventsE, processEvents]
      cases hq : ms.queue with
      | nil => rfl
      | cons e tail =>
          show (match processTransitionsE root ms e with
                | Except.error err => Except.error err
                | Except.ok ms1 =>
                    processEventsE root fuel
                      { ms1 with queue := ms1.queue.drop 1 }) =
              Except.ok
                (processEvents root fuel
                  { processTransitions root ms e with
                    queue := (processTransitions root ms e).queue.drop 1 })
          rw [processTransitionsE_ok h ms e]
          exact ih _

/-- The toplevel frame of `pushEvent`, for an already-enqueued state. -/
theorem pushFrameE_ok {root : STree} (h : buildInitialOk root = true)
    (fuel : Nat) (ms1 : MState) :
    (if ms1.inTop then Except.ok ms1
     else
       match processEventsE root fuel { ms1 with inTop := true } with
       | .error err => .error err
       | .ok ms2 => .ok { ms2 with inTop := false }) =
      Except.ok (ε := String)
        (if ms1.inTop then ms1
         else { processEvents root fuel { ms1 with inTop := true } with
                inTop := false }) := by
  cases ht : ms1.inTop with
  | true => rw [if_pos rfl, if_pos rfl]
  | false =>
      rw [if_neg Bool.false_ne_true, if_neg Bool.false_ne_true]
      rw [processEventsE_ok h fuel]

theorem pushEventE_ok {root : STree} (h : buildInitialOk root = true)
    (fuel : Nat) (ms : MState) (e : String) :
    pushEventE root fuel ms e = .ok (pushEventM root fuel ms e) :=
  pushFrameE_ok h fuel { ms with queue := ms.queue ++ [e] }

/-- C10: once construction has succeeded — in particular once the
builder's check (README lines 1080-1083) that every non-parallel state
with children names an initial child has held at every state of the
topology — the `NoInitialState` throw inside `StateImpl::enter`
(README lines 1122-1129), the only throw site reachable from the
runtime entry points, is unreachable: `enter()` and `pushEvent()`,
modelled with the throw propagated as an `Except` error, always return
successfully and agree with their total models (`leave()` and
`inState()` contain no throw site at all). -/
theorem c10_no_throw_after_build :
    ∀ (root : STree) (ms : MState) (e : String) (fuel : Nat),
      buildInitialOk root = true →
      machineEnterE root ms = .ok (machineEnter root ms) ∧
      pushEventE root fuel ms e = .ok (pushEventM root fuel ms e) :=
  fun _ ms e fuel h =>
    ⟨machineEnterE_ok h ms, pushEventE_ok h fuel ms e⟩

theorem c10_witness :
    buildInitialOk mChild = true ∧
    (machineEnterE mChild freshMS = .ok (machineEnter mChild freshMS) ∧
      pushEventE mChild 3 freshMS "toS2" =
        .ok (pushEventM mChild 3 freshMS "toS2")) :=
  ⟨by decide, c10_no_throw_after_build mChild freshMS "toS2" 3 (by decide)⟩

end IFSM
